import Mathlib

/-!
Verification development for the basic_trie library (src/src/trie/*.rs,
src/src/trie_node/*.rs).  Words are modelled as lists of tokens
(`List String`): tokenization (`get_characters`) is external to the engine,
which only ever walks token sequences.  A node's `FxHashMap` child table is
modelled as an association list with map semantics: `set` replaces the entry
in place, `eraseAll` models `HashMap::remove`, `insertLast` models
`HashMap::insert` of a fresh key.  Rust `usize` arithmetic is modelled by
`Nat`; the places where the source can panic (the `ArrayString::from(...)
.unwrap()` capacity check in insert, the `self.len -= 1` debug underflow in
remove) get explicit checked variants returning `Option`.
-/

set_option autoImplicit false

abbrev Tok := String

abbrev Word := List Tok

/-- Byte length of the string a token list concatenates to: Rust compares
`substring.len()`, which is the UTF-8 byte count of the accumulated word. -/
def wlen (w : Word) : Nat := (w.map String.utf8ByteSize).sum

/-- The length ordering a `words_min_max` call maintains: with `Ordering.gt`
(`get_longest`) every previously seen word is at most as long as a kept one;
with `Ordering.lt` (`get_shortest`) at least as long. -/
def ordLe : Ordering → Nat → Nat → Prop
  | .gt, a, b => a ≤ b
  | _, a, b => b ≤ a

/-- The accumulator invariant of `words_min_max`: `acc` holds exactly the
words of `V` that are extremal (under the requested ordering) among `V`. -/
def selSpec (ord : Ordering) (V acc : List Word) : Prop :=
  ∀ x, x ∈ acc ↔ (x ∈ V ∧ ∀ y ∈ V, ordLe ord (wlen y) (wlen x))

mutual
/-- Embeds `TrieDatalessNode` (src/src/trie_node/regular_node.rs): a child
table keyed by token plus the `word_end` marker. -/
inductive RNode : Type where
  | mk : RKids → Bool → RNode
/-- The child table of a `TrieDatalessNode`, an association list standing for
the `FxHashMap<ArrayString<4>, TrieDatalessNode>`. -/
inductive RKids : Type where
  | nil : RKids
  | cons : Tok → RNode → RKids → RKids
end

namespace RNode

/-- The child table of a node. -/
def kids : RNode → RKids
  | .mk ks _ => ks

/-- Embeds `is_associated`: the `word_end` marker. -/
def assoc : RNode → Bool
  | .mk _ a => a

/-- Embeds `TrieDatalessNode::new`. -/
def new : RNode := .mk .nil false

end RNode

namespace RKids

/-- Map lookup on the child table (`children.get`). -/
def lookup (c : Tok) : RKids → Option RNode
  | .nil => none
  | .cons k n ks => if k = c then some n else lookup c ks

/-- Replace the node stored under an existing key in place, or append the
binding if the key is absent; models mutating through
`children.entry(c).or_insert_with(new)` / `children.get_mut(c)`. -/
def set (c : Tok) (n : RNode) : RKids → RKids
  | .nil => .cons c n .nil
  | .cons k m ks => if k = c then .cons k n ks else .cons k m (set c n ks)

/-- Drop every binding of a key; models `HashMap::remove` (a hash map holds
at most one binding per key, so removing all occurrences is the same map). -/
def eraseAll (c : Tok) : RKids → RKids
  | .nil => .nil
  | .cons k m ks => if k = c then eraseAll c ks else .cons k m (eraseAll c ks)

/-- Append one binding at the end; models `HashMap::insert` of a key that is
not present. -/
def insertLast (c : Tok) (n : RNode) : RKids → RKids
  | .nil => .cons c n .nil
  | .cons k m ks => .cons k m (insertLast c n ks)

/-- Number of children (`children.len()`). -/
def length : RKids → Nat
  | .nil => 0
  | .cons _ _ ks => length ks + 1

/-- Whether the child table is empty (`children.is_empty()`). -/
def isEmpty : RKids → Bool
  | .nil => true
  | .cons _ _ _ => false

end RKids

/-- Embeds `get_final_node` (src/src/trie/regular_trie.rs): walk the child
chain along the token sequence, `none` when some token is absent. -/
def RNode.finalNode : RNode → Word → Option RNode
  | n, [] => some n
  | .mk ks _, c :: w =>
    match ks.lookup c with
    | none => none
    | some m => m.finalNode w

/-- Whether the trie rooted at this node stores the word: walk to the final
node and read `is_associated` (this is exactly what `Trie::contains` does). -/
def RNode.isWord (n : RNode) (w : Word) : Bool :=
  match n.finalNode w with
  | none => false
  | some m => m.assoc

/-- Rebuild the tree with the node at the end of the given path transformed;
models mutating through the `&mut` reference `get_final_node_mut` returns.
If the path is absent the tree is returned unchanged (the callers only use
this after `get_final_node` succeeded). -/
def RNode.modAt : RNode → Word → (RNode → RNode) → RNode
  | n, [], f => f n
  | .mk ks a, c :: w, f =>
    match ks.lookup c with
    | none => .mk ks a
    | some m => .mk (ks.set c (m.modAt w f)) a

/-- Embeds the path-walking loop of `Trie::insert`: create (or reuse) one
child per token, then `associate` the final node. -/
def RNode.insertW : RNode → Word → RNode
  | .mk ks _, [] => .mk ks true
  | .mk ks a, c :: w =>
    .mk (ks.set c (((ks.lookup c).getD RNode.new).insertW w)) a

mutual
/-- Number of associated nodes in the subtree, the node itself included. -/
def RNode.countAssoc : RNode → Nat
  | .mk ks a => RKids.countAssoc ks + (if a then 1 else 0)
/-- Number of associated nodes below a child table. -/
def RKids.countAssoc : RKids → Nat
  | .nil => 0
  | .cons _ n ks => n.countAssoc + RKids.countAssoc ks
end

mutual
/-- Embeds `find_words`: every associated node of the subtree emits the
token path that reaches it (the accumulated substring). -/
def RNode.wordsOf : RNode → List Word
  | .mk ks a => (if a then [[]] else []) ++ RKids.wordsOf ks
/-- Words found below a child table, each prefixed with its child's token. -/
def RKids.wordsOf : RKids → List Word
  | .nil => []
  | .cons c n ks => (n.wordsOf.map (fun w => c :: w)) ++ RKids.wordsOf ks
end

mutual
/-- Embeds `remove_all_words` (src/src/trie_node/regular_node.rs): count the
associated nodes of the subtree while dropping every child table. -/
def RNode.removeAllWords : RNode → Nat
  | .mk ks a => RKids.removeAllWords ks + (if a then 1 else 0)
/-- The children part of `remove_all_words`. -/
def RKids.removeAllWords : RKids → Nat
  | .nil => 0
  | .cons _ n ks => n.removeAllWords + RKids.removeAllWords ks
end

/-- Embeds `TrieDatalessNode::remove_one_word`: returns the `must_keep` flag
together with the rewritten node.  At the end of the path the node is
disassociated; on the way back up a node either keeps its (updated) child
table, or clears it entirely and reports whether it is itself associated.
The source unwraps `children.get_mut(next_character)`; every caller checks
the path exists first, so the impossible branch returns the node unchanged. -/
def RNode.removeOneWord : RNode → Word → Bool × RNode
  | .mk ks _, [] => (false, .mk ks false)
  | .mk ks a, c :: w =>
    match ks.lookup c with
    | none => (true, .mk ks a)
    | some m =>
      let r := m.removeOneWord w
      if ks.length > 1 || r.1 then (true, .mk (ks.set c r.2) a)
      else (a, .mk .nil a)

mutual
/-- Embeds `words_min_max` (the node part shared by `get_longest` and
`get_shortest`): depth-first traversal that keeps the list of all words tied
for the extremal byte length seen so far. -/
def RNode.wordsMinMax : RNode → Word → List Word → Ordering → List Word
  | .mk ks a, sub, acc, ord =>
    let acc1 :=
      if a then
        match acc.head? with
        | none => acc ++ [sub]
        | some f =>
          match compare (wlen sub) (wlen f) with
          | .lt => if ord = .lt then [sub] else acc
          | .gt => if ord = .gt then [sub] else acc
          | .eq => acc ++ [sub]
      else acc
    RKids.wordsMinMax ks sub acc1 ord
def RKids.wordsMinMax : RKids → Word → List Word → Ordering → List Word
  | .nil, _, acc, _ => acc
  | .cons c n ks, sub, acc, ord =>
    RKids.wordsMinMax ks sub (n.wordsMinMax (sub ++ [c]) acc ord) ord
end

mutual
/-- Embeds the node merge `<TrieDatalessNode as AddAssign>::add_assign` on a
matched child pair: the rhs child's association is transferred first (`if
rhs_next_node.word_end { self_next_node.word_end = true }`), then the child
tables are merged recursively. -/
def RNode.merge1 : RNode → RNode → RNode
  | .mk aks aa, .mk bks ba => .mk (RKids.merge aks bks) (aa || ba)
/-- The loop of `add_assign` over the rhs child table: a token absent from
self moves the rhs subtree over wholesale; a shared token removes self's
child, merges the pair and inserts the result back. -/
def RKids.merge : RKids → RKids → RKids
  | acc, .nil => acc
  | acc, .cons c bn bs =>
    match acc.lookup c with
    | some an => RKids.merge ((acc.eraseAll c).insertLast c (an.merge1 bn)) bs
    | none => RKids.merge (acc.insertLast c bn) bs
end

/-- Embeds the top-level node `+=`: only the child tables are merged; the
rhs root's own association is not examined by the loop. -/
def RNode.addAssign (a b : RNode) : RNode := .mk (RKids.merge a.kids b.kids) a.assoc

mutual
/-- Whether some node strictly below has an empty child table and no
association (a dead leaf in the sense of spec invariant 1). -/
def RNode.deadBelow : RNode → Bool
  | .mk ks _ => RKids.dead ks
/-- Whether a child table holds a dead node or a node with a dead strict
descendant. -/
def RKids.dead : RKids → Bool
  | .nil => false
  | .cons _ n ks => (n.kids.isEmpty && !n.assoc) || n.deadBelow || RKids.dead ks
end

mutual
/-- Well-formedness of a node as produced by the hash-map-backed source: the
child table never binds a token twice, at every level. -/
def RNode.wf : RNode → Bool
  | .mk ks _ => RKids.wf ks
/-- Well-formedness of a child table. -/
def RKids.wf : RKids → Bool
  | .nil => true
  | .cons c n ks => !(ks.lookup c).isSome && n.wf && RKids.wf ks
end

mutual
/-- Embeds `TrieDataNode<D>` (src/src/trie_node/data_node.rs): a child table
keyed by token plus `word_end_data : Option<ThinVec<D>>`. -/
inductive DNode (D : Type) : Type where
  | mk : DKids D → Option (List D) → DNode D
/-- The child table of a `TrieDataNode`, an association list standing for
the `FxHashMap<ArrayString<4>, TrieDataNode<D>>`. -/
inductive DKids (D : Type) : Type where
  | nil : DKids D
  | cons : Tok → DNode D → DKids D → DKids D
end

variable {D : Type}

namespace DNode

/-- The child table of a node. -/
def kids : DNode D → DKids D
  | .mk ks _ => ks

/-- The `word_end_data` association of a node. -/
def assoc : DNode D → Option (List D)
  | .mk _ a => a

/-- Embeds `TrieDataNode::new`. -/
def new : DNode D := .mk .nil none

end DNode

namespace DKids

/-- Map lookup on the child table (`children.get`). -/
def lookup (c : Tok) : DKids D → Option (DNode D)
  | .nil => none
  | .cons k n ks => if k = c then some n else lookup c ks

/-- Replace the node stored under an existing key in place, or append the
binding if the key is absent. -/
def set (c : Tok) (n : DNode D) : DKids D → DKids D
  | .nil => .cons c n .nil
  | .cons k m ks => if k = c then .cons k n ks else .cons k m (set c n ks)

/-- Drop every binding of a key; models `HashMap::remove`. -/
def eraseAll (c : Tok) : DKids D → DKids D
  | .nil => .nil
  | .cons k m ks => if k = c then eraseAll c ks else .cons k m (eraseAll c ks)

/-- Append one binding at the end; models `HashMap::insert` of a fresh key. -/
def insertLast (c : Tok) (n : DNode D) : DKids D → DKids D
  | .nil => .cons c n .nil
  | .cons k m ks => .cons k m (insertLast c n ks)

/-- Number of children (`children.len()`). -/
def length : DKids D → Nat
  | .nil => 0
  | .cons _ _ ks => length ks + 1

/-- Whether the child table is empty (`children.is_empty()`). -/
def isEmpty : DKids D → Bool
  | .nil => true
  | .cons _ _ _ => false

end DKids

/-- Embeds `get_final_node` (src/src/trie/data_trie.rs). -/
def DNode.finalNode : DNode D → Word → Option (DNode D)
  | n, [] => some n
  | .mk ks _, c :: w =>
    match ks.lookup c with
    | none => none
    | some m => m.finalNode w

/-- The association at the end of a path, `none` when the path is absent or
the final node carries no association. -/
def DNode.assocAt (n : DNode D) (w : Word) : Option (List D) :=
  match n.finalNode w with
  | none => none
  | some m => m.assoc

/-- Whether the trie rooted at this node stores the word (what
`DataTrie::contains` computes via `get_final_node` and `is_associated`). -/
def DNode.isWord (n : DNode D) (w : Word) : Bool := (n.assocAt w).isSome

/-- Rebuild the tree with the node at the end of the given path transformed;
models mutating through `get_final_node_mut`. -/
def DNode.modAt : DNode D → Word → (DNode D → DNode D) → DNode D
  | n, [], f => f n
  | .mk ks a, c :: w, f =>
    match ks.lookup c with
    | none => .mk ks a
    | some m => .mk (ks.set c (m.modAt w f)) a

/-- Embeds the path walk of `DataTrie::insert` and `insert_no_data`
up to the final node: create (or reuse) one child per token. -/
def DNode.insertPath : DNode D → Word → (DNode D → DNode D) → DNode D
  | n, [], f => f n
  | .mk ks a, c :: w, f =>
    .mk (ks.set c (((ks.lookup c).getD DNode.new).insertPath w f)) a

/-- The final-node step of `DataTrie::insert`: `associate` if needed (the
trie-level `len` guard lives at the trie level) and `push_data`. -/
def DNode.insertW (n : DNode D) (w : Word) (d : D) : DNode D :=
  n.insertPath w (fun m => .mk m.kids (some ((m.assoc.getD []) ++ [d])))

/-- The final-node step of `DataTrie::insert_no_data`: `associate` only,
which is a no-op on an already associated node. -/
def DNode.insertNoData (n : DNode D) (w : Word) : DNode D :=
  n.insertPath w (fun m => .mk m.kids (some (m.assoc.getD [])))

mutual
/-- Number of associated nodes in the subtree, the node itself included. -/
def DNode.countAssoc : DNode D → Nat
  | .mk ks a => DKids.countAssoc ks + (if a.isSome then 1 else 0)
/-- Number of associated nodes below a child table. -/
def DKids.countAssoc : DKids D → Nat
  | .nil => 0
  | .cons _ n ks => n.countAssoc + DKids.countAssoc ks
end

mutual
/-- Embeds `find_words` for data nodes. -/
def DNode.wordsOf : DNode D → List Word
  | .mk ks a => (if a.isSome then [[]] else []) ++ DKids.wordsOf ks
/-- Words found below a child table, each prefixed with its child's token. -/
def DKids.wordsOf : DKids D → List Word
  | .nil => []
  | .cons c n ks => (n.wordsOf.map (fun w => c :: w)) ++ DKids.wordsOf ks
end

mutual
/-- Embeds `remove_all_words_collect` (src/src/trie_node/data_node.rs): the
number of associated nodes removed from the subtree paired with the data
collected on the way — each node appends its children's data first (in child
order) and its own data after. -/
def DNode.removeAllWordsCollect : DNode D → Nat × List D
  | .mk ks a =>
    let r := DKids.removeAllWordsCollect ks
    (r.1 + (if a.isSome then 1 else 0), r.2 ++ a.getD [])
/-- The children part of `remove_all_words_collect`. -/
def DKids.removeAllWordsCollect : DKids D → Nat × List D
  | .nil => (0, [])
  | .cons _ n ks =>
    let r := n.removeAllWordsCollect
    let rs := DKids.removeAllWordsCollect ks
    (r.1 + rs.1, r.2 ++ rs.2)
end

mutual
/-- Specification view of the tagged subtree: the list of stored words paired
with their data lists, root word first, children in table order. -/
def DNode.wordData {D : Type} : DNode D → List (Word × List D)
  | .mk ks a =>
    (a.elim [] fun dv => [(([] : Word), dv)]) ++ DKids.wordData ks
/-- Word/data pairs found below a child table. -/
def DKids.wordData {D : Type} : DKids D → List (Word × List D)
  | .nil => []
  | .cons c n ks =>
    (DNode.wordData n).map (fun q => (c :: q.1, q.2)) ++ DKids.wordData ks
end

/-- Embeds `TrieDataNode::remove_one_word`: the `RemoveData` pair of the
`must_keep` flag and the association captured at the terminal node, together
with the rewritten node.  The source unwraps `children.get_mut`; every
caller checks the path exists first, so that branch returns the node
unchanged. -/
def DNode.removeOneWord : DNode D → Word → (Bool × Option (List D)) × DNode D
  | .mk ks a, [] => ((false, a), .mk ks none)
  | .mk ks a, c :: w =>
    match ks.lookup c with
    | none => ((true, none), .mk ks a)
    | some m =>
      let r := m.removeOneWord w
      if ks.length > 1 || r.1.1 then ((true, r.1.2), .mk (ks.set c r.2) a)
      else ((a.isSome, r.1.2), .mk .nil a)

/-- Appending an optional rhs data list onto an optional lhs one, exactly as
the matched-child edge case of the data-node `add_assign` does: rhs data is
appended when both sides are associated, adopted when only rhs is, and the
lhs (possibly absent) association is kept when rhs carries none. -/
def optAppend : Option (List D) → Option (List D) → Option (List D)
  | sa, none => sa
  | some la, some lb => some (la ++ lb)
  | none, some lb => some lb

mutual
/-- Embeds `<TrieDataNode as AddAssign>::add_assign` on a matched child
pair: the rhs child's `word_end_data` is taken and appended onto (or adopted
by) self's child first, then the child tables merge recursively. -/
def DNode.merge1 : DNode D → DNode D → DNode D
  | .mk aks aa, .mk bks ba => .mk (DKids.merge aks bks) (optAppend aa ba)
/-- The loop of the data-node `add_assign` over the rhs child table. -/
def DKids.merge : DKids D → DKids D → DKids D
  | acc, .nil => acc
  | acc, .cons c bn bs =>
    match acc.lookup c with
    | some an => DKids.merge ((acc.eraseAll c).insertLast c (an.merge1 bn)) bs
    | none => DKids.merge (acc.insertLast c bn) bs
end

/-- Embeds the top-level data-node `+=`: only the child tables are merged;
the rhs root's own association is never examined by the loop. -/
def DNode.addAssign (a b : DNode D) : DNode D :=
  .mk (DKids.merge a.kids b.kids) a.assoc

mutual
/-- Well-formedness as produced by the hash-map-backed source: no child
table binds a token twice, at any level. -/
def DNode.wf : DNode D → Bool
  | .mk ks _ => DKids.wf ks
/-- Well-formedness of a child table. -/
def DKids.wf : DKids D → Bool
  | .nil => true
  | .cons c n ks => !(ks.lookup c).isSome && n.wf && DKids.wf ks
end

/-- Embeds `DataTrie<D>` (src/src/trie/data_trie.rs). -/
structure DataTrie (D : Type) where
  root : DNode D
  len : Nat

namespace DataTrie

/-- Embeds `DataTrie::new`. -/
def new : DataTrie D := ⟨DNode.new, 0⟩

/-- Embeds `DataTrie::insert`. -/
def insert (t : DataTrie D) (w : Word) (d : D) : DataTrie D :=
  ⟨t.root.insertW w d, if t.root.isWord w then t.len else t.len + 1⟩

/-- Embeds `DataTrie::insert_no_data`. -/
def insertNoData (t : DataTrie D) (w : Word) : DataTrie D :=
  ⟨t.root.insertNoData w, if t.root.isWord w then t.len else t.len + 1⟩

/-- Embeds `DataTrie::contains`. -/
def contains (t : DataTrie D) (w : Word) : Bool := t.root.isWord w

/-- Embeds `DataTrie::remove`, returning the removed data (if any) together
with the resulting trie.  A final node that still has children is only
disassociated — `clear_word_end_association(false)` — and `len` shrinks only
when it was associated; otherwise `remove_one_word` prunes from the root,
and when its captured data is `None` the call returns `Some(Vec::new())`
without touching `len`. -/
def remove (t : DataTrie D) (w : Word) : Option (List D) × DataTrie D :=
  match t.root.finalNode w with
  | none => (none, t)
  | some cur =>
    if !cur.kids.isEmpty then
      match cur.assoc with
      | some dv => (some dv, ⟨t.root.modAt w (fun n => .mk n.kids none), t.len - 1⟩)
      | none => (none, t)
    else
      let r := t.root.removeOneWord w
      match r.1.2 with
      | none => (some [], ⟨r.2, t.len⟩)
      | some dv => (some dv, ⟨r.2, t.len - 1⟩)

/-- Embeds `DataTrie::remove_prefix` (the identifier avoids the raw source
name for tooling reasons): collect and count over the prefix node's
children, clear the prefix node's child table, decrement `len` by the
count. -/
def removePfx (t : DataTrie D) (p : Word) : Option (List D) × DataTrie D :=
  match t.root.finalNode p with
  | none => (none, t)
  | some cur =>
    let r := DKids.removeAllWordsCollect cur.kids
    (some r.2, ⟨t.root.modAt p (fun n => .mk .nil n.assoc), t.len - r.1⟩)

/-- Embeds `DataTrie::clear_data`: take the association at the final node
and re-associate with an empty data list when it was present
(`clear_word_end_association(true)`); `len` is untouched. -/
def clearData (t : DataTrie D) (w : Word) : Option (List D) × DataTrie D :=
  match t.root.finalNode w with
  | none => (none, t)
  | some cur =>
    (cur.assoc,
      ⟨t.root.modAt w (fun n => .mk n.kids (n.assoc.map (fun _ => []))), t.len⟩)

/-- Embeds `DataTrie::get`. -/
def get (t : DataTrie D) (q : Word) : Option (List Word) :=
  match t.root.finalNode q with
  | none => none
  | some cur => some (cur.wordsOf.map (fun w => q ++ w))

/-- Embeds `<DataTrie as AddAssign>::add_assign`: the roots are merged and
`len` is left as it was. -/
def addAssign (t u : DataTrie D) : DataTrie D := ⟨t.root.addAssign u.root, t.len⟩

/-- Embeds `<DataTrie as Add>::add`: the trie with the smaller `len` is
merged into the other. -/
def add (t u : DataTrie D) : DataTrie D :=
  if t.len < u.len then addAssign u t else addAssign t u

end DataTrie

/-- Embeds `Trie` (src/src/trie/regular_trie.rs): the root node and the
cached `len` counter. -/
structure Trie where
  root : RNode
  len : Nat

namespace Trie

/-- Embeds `Trie::new`. -/
def new : Trie := ⟨RNode.new, 0⟩

/-- Embeds `Trie::insert`: walk/create the path, and bump `len` only when
the final node was not yet associated. -/
def insert (t : Trie) (w : Word) : Trie :=
  ⟨t.root.insertW w, if t.root.isWord w then t.len else t.len + 1⟩

/-- Embeds `Trie::contains`. -/
def contains (t : Trie) (w : Word) : Bool := t.root.isWord w

/-- Embeds `Trie::remove`: no-op when the path is absent; a final node that
still has children is only disassociated (with the `is_associated` guard on
the decrement); otherwise the recursive prune runs from the root and `len`
is decremented unconditionally. -/
def remove (t : Trie) (w : Word) : Trie :=
  match t.root.finalNode w with
  | none => t
  | some cur =>
    if !cur.kids.isEmpty then
      if cur.assoc then ⟨t.root.modAt w (fun n => .mk n.kids false), t.len - 1⟩
      else t
    else ⟨(t.root.removeOneWord w).2, t.len - 1⟩

/-- Embeds `Trie::remove_prefix` (the identifier avoids the raw source name
for tooling reasons): clear everything below the prefix node, decrementing
`len` by the number of associated nodes of the subtree except the prefix
node itself. -/
def removePfx (t : Trie) (p : Word) : Trie :=
  match t.root.finalNode p with
  | none => t
  | some cur =>
    ⟨t.root.modAt p (fun n => .mk .nil n.assoc),
      t.len - (cur.removeAllWords - (if cur.assoc then 1 else 0))⟩

/-- Embeds `Trie::get`: `none` when the query path is absent, otherwise all
words of the subtree prefixed with the query. -/
def get (t : Trie) (q : Word) : Option (List Word) :=
  match t.root.finalNode q with
  | none => none
  | some cur => some (cur.wordsOf.map (fun w => q ++ w))

/-- Embeds `Trie::get_longest`. -/
def getLongest (t : Trie) : List Word := t.root.wordsMinMax [] [] .gt

/-- Embeds `Trie::get_shortest`. -/
def getShortest (t : Trie) : List Word := t.root.wordsMinMax [] [] .lt

/-- Embeds `<Trie as AddAssign>::add_assign`: the roots are merged and `len`
is left as it was. -/
def addAssign (t u : Trie) : Trie := ⟨t.root.addAssign u.root, t.len⟩

end Trie

/-- Models `ArrayString::<4>::from(character)` as used by `Trie::insert` and
`DataTrie::insert`: an `ArrayString<4>` holds at most 4 bytes, so the
conversion fails — and the source's `.unwrap()` panics — on any grapheme
token longer than 4 bytes. -/
def arrayStringFrom4 (c : Tok) : Option Tok :=
  if c.utf8ByteSize ≤ 4 then some c else none

/-- Nat subtraction as Rust debug-mode `usize` subtraction: `none` is the
overflow panic of `self.len -= 1`. -/
def checkedSub (a b : Nat) : Option Nat :=
  if b ≤ a then some (a - b) else none

/-- `Trie::insert` with the `ArrayString::from(...).unwrap()` capacity check
made explicit: `none` marks the panic on a token longer than 4 bytes. -/
def Trie.insertChk (t : Trie) (w : Word) : Option Trie :=
  if w.all (fun c => (arrayStringFrom4 c).isSome) then some (t.insert w) else none

/-- `Trie::remove` with the two `self.len -= 1` decrements made explicit as
checked subtractions: `none` marks the debug-mode underflow panic. -/
def Trie.removeChk (t : Trie) (w : Word) : Option Trie :=
  match t.root.finalNode w with
  | none => some t
  | some cur =>
    if !cur.kids.isEmpty then
      if cur.assoc then
        (checkedSub t.len 1).map
          (fun l => ⟨t.root.modAt w (fun n => .mk n.kids false), l⟩)
      else some t
    else
      (checkedSub t.len 1).map (fun l => ⟨(t.root.removeOneWord w).2, l⟩)

theorem DKids.lookup_set_selfD {D : Type} (c : Tok) (n : DNode D) :
    ∀ ks : DKids D, (ks.set c n).lookup c = some n
  | .nil => by simp [set, lookup]
  | .cons k m ks => by
    by_cases h : k = c <;>
      simp [set, lookup, h, DKids.lookup_set_selfD c n ks]

theorem DKids.lookup_set_ne {D : Type} (c d : Tok) (n : DNode D) (hdc : d ≠ c) :
    ∀ ks : DKids D, (ks.set c n).lookup d = ks.lookup d
  | .nil => by simp [set, lookup, Ne.symm hdc]
  | .cons k m ks => by
    by_cases h : k = c
    · subst h
      simp [set, lookup, Ne.symm hdc, hdc]
    · by_cases h2 : k = d
      · subst h2
        simp [set, lookup, hdc, h]
      · simp [set, lookup, h, h2, DKids.lookup_set_ne c d n hdc ks]

theorem DKids.lookup_eraseAll_self {D : Type} (c : Tok) :
    ∀ ks : DKids D, (ks.eraseAll c).lookup c = none
  | .nil => by simp [eraseAll, lookup]
  | .cons k m ks => by
    by_cases h : k = c <;>
      simp [eraseAll, lookup, h, DKids.lookup_eraseAll_self c ks]

theorem DKids.lookup_eraseAll_ne {D : Type} (c d : Tok) (hdc : d ≠ c) :
    ∀ ks : DKids D, (ks.eraseAll c).lookup d = ks.lookup d
  | .nil => by simp [eraseAll, lookup]
  | .cons k m ks => by
    by_cases h : k = c
    · subst h
      simp [eraseAll, lookup, Ne.symm hdc, DKids.lookup_eraseAll_ne k d hdc ks]
    · simp [eraseAll, lookup, h, DKids.lookup_eraseAll_ne c d hdc ks]

theorem DKids.lookup_insertLast {D : Type} (c d : Tok) (n : DNode D) :
    ∀ ks : DKids D, (ks.insertLast c n).lookup d =
      ((ks.lookup d).elim (if c = d then some n else none) some)
  | .nil => by simp [insertLast, lookup]
  | .cons k m ks => by
    by_cases h : k = d <;>
      simp [insertLast, lookup, h, DKids.lookup_insertLast c d n ks]

theorem optAppend_none_right {D : Type} (sa : Option (List D)) : optAppend sa none = sa := by
  cases sa <;> rfl

theorem optAppend_none_left {D : Type} (sb : Option (List D)) : optAppend none sb = sb := by
  cases sb <;> rfl

theorem optAppend_isSome {D : Type} (sa sb : Option (List D)) :
    (optAppend sa sb).isSome = (sa.isSome || sb.isSome) := by
  cases sa <;> cases sb <;> rfl

theorem DNode.kids_mkD {D : Type} (ks : DKids D) (a : Option (List D)) :
    (DNode.mk ks a).kids = ks := rfl

theorem DNode.assoc_mkD {D : Type} (ks : DKids D) (a : Option (List D)) :
    (DNode.mk ks a).assoc = a := rfl

theorem DNode.assocAt_nil {D : Type} (n : DNode D) : n.assocAt [] = n.assoc := by
  cases n; rfl

theorem DNode.assocAt_cons {D : Type} (ks : DKids D) (a : Option (List D)) (c : Tok) (w : Word) :
    (DNode.mk ks a).assocAt (c :: w) =
      match ks.lookup c with
      | none => none
      | some m => m.assocAt w := by
  cases h : ks.lookup c <;> simp [DNode.assocAt, DNode.finalNode, h]

theorem DKids.wf_lookupD {D : Type} (c : Tok) (m : DNode D) :
    ∀ ks : DKids D, ks.wf = true → ks.lookup c = some m → m.wf = true
  | .nil => by simp [lookup]
  | .cons k n ks => by
    intro hwf hl
    rw [wf] at hwf
    simp only [Bool.and_eq_true] at hwf
    rw [lookup] at hl
    by_cases h : k = c
    · simp [h] at hl
      exact hl ▸ hwf.1.2
    · simp [h] at hl
      exact DKids.wf_lookupD c m ks hwf.2 hl

theorem DKids.lookup_merge {D : Type} (c : Tok) :
    ∀ (bs : DKids D), bs.wf = true → ∀ acc : DKids D,
      (DKids.merge acc bs).lookup c =
        match bs.lookup c, acc.lookup c with
        | some bn, some an => some (an.merge1 bn)
        | some bn, none => some bn
        | none, r => r
  | .nil => by
    intro _ acc
    simp [merge, lookup]
  | .cons k bn bs => by
    intro hwf acc
    rw [wf] at hwf
    simp only [Bool.and_eq_true, Bool.not_eq_true'] at hwf
    obtain ⟨⟨hk, _hbn⟩, hbs⟩ := hwf
    have hk0 : bs.lookup k = none := by
      cases hkl : bs.lookup k
      · rfl
      · rw [hkl] at hk
        cases hk
    by_cases h : k = c
    · subst h
      rw [lookup, if_pos rfl, merge]
      cases ha : acc.lookup k with
      | some an =>
        rw [DKids.lookup_merge k bs hbs _, hk0,
          DKids.lookup_insertLast k k (an.merge1 bn) _,
          DKids.lookup_eraseAll_self k acc]
        simp
      | none =>
        rw [DKids.lookup_merge k bs hbs _, hk0,
          DKids.lookup_insertLast k k bn _, ha]
        simp
    · rw [lookup, if_neg h, merge]
      cases ha : acc.lookup k with
      | some an =>
        rw [DKids.lookup_merge c bs hbs _,
          DKids.lookup_insertLast k c (an.merge1 bn) _,
          DKids.lookup_eraseAll_ne k c (Ne.symm h) acc]
        cases hac : acc.lookup c <;> simp [h]
      | none =>
        rw [DKids.lookup_merge c bs hbs _,
          DKids.lookup_insertLast k c bn _]
        cases hac : acc.lookup c <;> simp [h]

theorem DNode.assocAt_merge1 {D : Type} :
    ∀ (w : Word) (an bn : DNode D), bn.wf = true →
      (an.merge1 bn).assocAt w = optAppend (an.assocAt w) (bn.assocAt w)
  | [], .mk aks aa, .mk bks ba => by
    intro _hwf
    simp [merge1, assocAt_nil, assoc]
  | c :: w, .mk aks aa, .mk bks ba => by
    intro hwf
    rw [wf] at hwf
    rw [merge1, assocAt_cons, assocAt_cons, assocAt_cons,
      DKids.lookup_merge c bks hwf aks]
    cases hb : bks.lookup c with
    | some bc =>
      have hbc : bc.wf = true := DKids.wf_lookupD c bc bks hwf hb
      cases ha : aks.lookup c with
      | some ac =>
        simp only
        rw [DNode.assocAt_merge1 w ac bc hbc]
      | none =>
        simp only
        rw [optAppend_none_left]
    | none =>
      cases ha : aks.lookup c <;> simp [optAppend_none_right, optAppend]

theorem DNode.assocAt_addAssign {D : Type} (a b : DNode D) (c : Tok) (w : Word)
    (hwf : b.wf = true) :
    (a.addAssign b).assocAt (c :: w) = optAppend (a.assocAt (c :: w)) (b.assocAt (c :: w)) := by
  obtain ⟨aks, aa⟩ := a
  obtain ⟨bks, ba⟩ := b
  have h1 : (DNode.addAssign (DNode.mk aks aa) (DNode.mk bks ba)).assocAt (c :: w) =
      ((DNode.mk aks aa).merge1 (DNode.mk bks ba)).assocAt (c :: w) := by
    rw [addAssign, merge1, assocAt_cons, assocAt_cons]
    rfl
  rw [h1, DNode.assocAt_merge1 (c :: w) _ _ hwf]

/-- Boolean prefix test on token sequences. -/
def isPfx : Word → Word → Bool
  | [], _ => true
  | _ :: _, [] => false
  | c :: p, d :: v => c = d && isPfx p v

/-- Boolean proper-prefix test on token sequences. -/
def isPropPfx (p v : Word) : Bool := isPfx p v && !(p = v : Bool)

theorem isPfx_append (p s : Word) : isPfx p (p ++ s) = true := by
  induction p with
  | nil => rfl
  | cons c p ih => simp [isPfx, ih]

theorem isPfx_iff (p v : Word) : isPfx p v = true ↔ ∃ s, v = p ++ s := by
  constructor
  · intro h
    induction p generalizing v with
    | nil => exact ⟨v, rfl⟩
    | cons c p ih =>
      cases v with
      | nil => simp [isPfx] at h
      | cons d v =>
        rw [isPfx, Bool.and_eq_true] at h
        obtain ⟨s, hs⟩ := ih v h.2
        obtain ⟨rfl⟩ := of_decide_eq_true h.1
        exact ⟨s, by simp [hs]⟩
  · rintro ⟨s, rfl⟩
    exact isPfx_append p s

theorem DNode.finalNode_nilD {D : Type} (n : DNode D) : n.finalNode [] = some n := by
  cases n
  rfl

theorem DNode.modAt_nil {D : Type} (n : DNode D) (f : DNode D → DNode D) :
    n.modAt [] f = f n := by
  cases n
  rfl

theorem DNode.finalNode_modAt_selfD {D : Type} (f : DNode D → DNode D) :
    ∀ (p : Word) (n cur : DNode D), n.finalNode p = some cur →
      (n.modAt p f).finalNode p = some (f cur)
  | [], n, cur => by
    intro h
    rw [DNode.finalNode_nilD] at h
    cases h
    rw [modAt_nil, DNode.finalNode_nilD]
  | c :: p, .mk ks a, cur => by
    intro h
    rw [finalNode] at h
    cases hl : ks.lookup c with
    | none => rw [hl] at h; cases h
    | some m =>
      rw [hl] at h
      rw [modAt, hl, finalNode, DKids.lookup_set_selfD c (m.modAt p f) ks]
      exact DNode.finalNode_modAt_selfD f p m cur h

theorem DNode.assocAt_modAt_self {D : Type} (f : DNode D → DNode D)
    (p : Word) (n cur : DNode D) (h : n.finalNode p = some cur) :
    (n.modAt p f).assocAt p = (f cur).assoc := by
  rw [DNode.assocAt, DNode.finalNode_modAt_selfD f p n cur h]

theorem DNode.assocAt_modAt_not_pfx {D : Type} (f : DNode D → DNode D) :
    ∀ (p v : Word) (n : DNode D), isPfx p v = false →
      (n.modAt p f).assocAt v = n.assocAt v
  | [], v, n => by intro h; cases h
  | c :: p, v, .mk ks a => by
    intro h
    cases hl : ks.lookup c with
    | none => rw [modAt, hl]
    | some m =>
      rw [modAt, hl]
      cases v with
      | nil => rw [assocAt_nil, assocAt_nil]; rfl
      | cons d v =>
        by_cases hdc : c = d
        · subst hdc
          have h2 : isPfx p v = false := by simpa [isPfx] using h
          rw [assocAt_cons, assocAt_cons, DKids.lookup_set_selfD c (m.modAt p f) ks, hl]
          exact DNode.assocAt_modAt_not_pfx f p v m h2
        · rw [assocAt_cons, assocAt_cons,
            DKids.lookup_set_ne c d (m.modAt p f) (Ne.symm hdc) ks]

theorem DNode.assocAt_modAt_append {D : Type} (f : DNode D → DNode D) :
    ∀ (p : Word) (n cur : DNode D), n.finalNode p = some cur →
      ∀ v : Word, (n.modAt p f).assocAt (p ++ v) = (f cur).assocAt v
  | [], n, cur => by
    intro h v
    rw [DNode.finalNode_nilD] at h
    cases h
    rw [modAt_nil]
    rfl
  | c :: p, .mk ks a, cur => by
    intro h v
    rw [finalNode] at h
    cases hl : ks.lookup c with
    | none => rw [hl] at h; cases h
    | some m =>
      rw [hl] at h
      rw [modAt, hl, List.cons_append, assocAt_cons,
        DKids.lookup_set_selfD c (m.modAt p f) ks]
      exact DNode.assocAt_modAt_append f p m cur h v

mutual
theorem DNode.collect_countN {D : Type} :
    ∀ n : DNode D, n.removeAllWordsCollect.1 = n.countAssoc
  | .mk ks a => by
    rw [DNode.removeAllWordsCollect, DNode.countAssoc]
    simp [DKids.collect_countK ks]
theorem DKids.collect_countK {D : Type} :
    ∀ ks : DKids D, ks.removeAllWordsCollect.1 = ks.countAssoc
  | .nil => rfl
  | .cons c n ks => by
    rw [DKids.removeAllWordsCollect, DKids.countAssoc]
    simp [DNode.collect_countN n, DKids.collect_countK ks]
end

mutual
theorem DNode.wordsOf_lengthN {D : Type} :
    ∀ n : DNode D, n.wordsOf.length = n.countAssoc
  | .mk ks a => by
    rw [DNode.wordsOf, DNode.countAssoc]
    cases a <;> simp [DKids.wordsOf_lengthK ks, Nat.add_comm]
theorem DKids.wordsOf_lengthK {D : Type} :
    ∀ ks : DKids D, ks.wordsOf.length = ks.countAssoc
  | .nil => rfl
  | .cons c n ks => by
    rw [DKids.wordsOf, DKids.countAssoc]
    simp [DNode.wordsOf_lengthN n, DKids.wordsOf_lengthK ks]
end

mutual
theorem DNode.wordData_fstN {D : Type} :
    ∀ n : DNode D, n.wordData.map Prod.fst = n.wordsOf
  | .mk ks a => by
    rw [DNode.wordData, DNode.wordsOf]
    cases a <;> simp [DKids.wordData_fstK ks]
theorem DKids.wordData_fstK {D : Type} :
    ∀ ks : DKids D, ks.wordData.map Prod.fst = ks.wordsOf
  | .nil => rfl
  | .cons c n ks => by
    rw [DKids.wordData, DKids.wordsOf]
    simp only [List.map_append, List.map_map, DKids.wordData_fstK ks]
    rw [← DNode.wordData_fstN n, List.map_map]
    rfl
end

mutual
theorem DNode.collect_data_permN {D : Type} :
    ∀ n : DNode D, n.removeAllWordsCollect.2.Perm (n.wordData.map Prod.snd).flatten
  | .mk ks a => by
    rw [DNode.removeAllWordsCollect, DNode.wordData]
    cases a with
    | none =>
      simpa using DKids.collect_data_permK ks
    | some dv =>
      simp only [List.map_append, List.flatten_append, Option.getD_some]
      refine List.Perm.trans (List.Perm.append_right dv (DKids.collect_data_permK ks)) ?h
      refine List.Perm.trans (List.perm_append_comm) ?h2
      simp
theorem DKids.collect_data_permK {D : Type} :
    ∀ ks : DKids D, ks.removeAllWordsCollect.2.Perm (ks.wordData.map Prod.snd).flatten
  | .nil => List.Perm.refl []
  | .cons c n ks => by
    rw [DKids.removeAllWordsCollect, DKids.wordData]
    simp only [List.map_append, List.flatten_append, List.map_map]
    have h1 : (List.map (Prod.snd ∘ fun q : Word × List D => ((c :: q.1 : Word), q.2))
        (DNode.wordData n)) = (DNode.wordData n).map Prod.snd := rfl
    rw [h1]
    exact List.Perm.append (DNode.collect_data_permN n) (DKids.collect_data_permK ks)
end

mutual
theorem DNode.wordData_assocAtN {D : Type} :
    ∀ n : DNode D, n.wf = true → ∀ (w : Word) (dv : List D),
      (w, dv) ∈ n.wordData → n.assocAt w = some dv
  | .mk ks a => by
    intro hwf w dv hmem
    rw [DNode.wordData] at hmem
    rw [List.mem_append] at hmem
    cases hmem with
    | inl h =>
      cases a with
      | none => simp at h
      | some dv0 =>
        simp at h
        obtain ⟨rfl, rfl⟩ := h
        rw [DNode.assocAt_nil]
        rfl
    | inr h =>
      obtain ⟨c, w1, m, rfl, hl, hm⟩ := DKids.wordData_assocAtK ks (by rwa [DNode.wf] at hwf) w dv h
      rw [DNode.assocAt_cons, hl]
      exact hm
theorem DKids.wordData_assocAtK {D : Type} :
    ∀ ks : DKids D, ks.wf = true → ∀ (w : Word) (dv : List D),
      (w, dv) ∈ ks.wordData →
      ∃ c w1 m, w = c :: w1 ∧ ks.lookup c = some m ∧ m.assocAt w1 = some dv
  | .nil => by
    intro _ w dv hmem
    simp [DKids.wordData] at hmem
  | .cons c n ks => by
    intro hwf w dv hmem
    rw [DKids.wf] at hwf
    simp only [Bool.and_eq_true, Bool.not_eq_true'] at hwf
    obtain ⟨⟨hk, hn⟩, hks⟩ := hwf
    have hk0 : ks.lookup c = none := by
      cases hkl : ks.lookup c
      · rfl
      · rw [hkl] at hk
        cases hk
    rw [DKids.wordData, List.mem_append] at hmem
    cases hmem with
    | inl h =>
      rw [List.mem_map] at h
      obtain ⟨q, hq, hqe⟩ := h
      cases hqe
      exact ⟨c, q.1, n, rfl, by rw [DKids.lookup, if_pos rfl], DNode.wordData_assocAtN n hn q.1 q.2 hq⟩
    | inr h =>
      obtain ⟨c1, w1, m, rfl, hl, hm⟩ := DKids.wordData_assocAtK ks hks w dv h
      by_cases hcc : c = c1
      · subst hcc
        rw [hk0] at hl
        cases hl
      · exact ⟨c1, w1, m, rfl, by rw [DKids.lookup, if_neg hcc]; exact hl, hm⟩
end

theorem DKids.countAssoc_lookup_le {D : Type} (c : Tok) (m : DNode D) :
    ∀ ks : DKids D, ks.lookup c = some m → m.countAssoc ≤ ks.countAssoc
  | .nil => by intro h; cases h
  | .cons k n ks => by
    intro h
    rw [DKids.lookup] at h
    rw [DKids.countAssoc]
    by_cases hk : k = c
    · rw [if_pos hk] at h
      cases h
      exact Nat.le_add_right _ _
    · rw [if_neg hk] at h
      exact Nat.le_trans (DKids.countAssoc_lookup_le c m ks h) (Nat.le_add_left _ _)

theorem DNode.countAssoc_finalNode_le {D : Type} :
    ∀ (p : Word) (n cur : DNode D), n.finalNode p = some cur →
      cur.countAssoc ≤ n.countAssoc
  | [], n, cur => by
    intro h
    rw [DNode.finalNode_nilD] at h
    cases h
    exact Nat.le_refl _
  | c :: p, .mk ks a, cur => by
    intro h
    rw [DNode.finalNode] at h
    cases hl : ks.lookup c with
    | none => rw [hl] at h; cases h
    | some m =>
      rw [hl] at h
      refine Nat.le_trans (DNode.countAssoc_finalNode_le p m cur h) ?h2
      rw [DNode.countAssoc]
      exact Nat.le_trans (DKids.countAssoc_lookup_le c m ks hl) (Nat.le_add_right _ _)

mutual
theorem DNode.mem_wordsOfND {D : Type} :
    ∀ n : DNode D, n.wf = true → ∀ w : Word, w ∈ n.wordsOf ↔ n.isWord w = true
  | .mk ks a => by
    intro hwf w
    rw [DNode.wf] at hwf
    rw [DNode.wordsOf, List.mem_append]
    constructor
    · intro h
      cases h with
      | inl h =>
        cases a with
        | none => simp at h
        | some dv =>
          simp at h
          subst h
          rw [DNode.isWord, DNode.assocAt_nil]
          rfl
      | inr h =>
        obtain ⟨c, w1, m, rfl, hl, hm⟩ := (DKids.mem_wordsOfKD ks hwf w).mp h
        rw [DNode.isWord, DNode.assocAt_cons, hl]
        exact hm
    · intro h
      cases w with
      | nil =>
        rw [DNode.isWord, DNode.assocAt_nil] at h
        left
        cases a with
        | none => cases h
        | some dv => simp
      | cons c w1 =>
        rw [DNode.isWord, DNode.assocAt_cons] at h
        cases hl : ks.lookup c with
        | none => rw [hl] at h; cases h
        | some m =>
          rw [hl] at h
          right
          exact (DKids.mem_wordsOfKD ks hwf (c :: w1)).mpr ⟨c, w1, m, rfl, hl, h⟩
theorem DKids.mem_wordsOfKD {D : Type} :
    ∀ ks : DKids D, ks.wf = true → ∀ w : Word,
      w ∈ ks.wordsOf ↔ ∃ c w1 m, w = c :: w1 ∧ ks.lookup c = some m ∧ m.isWord w1 = true
  | .nil => by
    intro _ w
    simp [DKids.wordsOf, DKids.lookup]
  | .cons c n ks => by
    intro hwf w
    rw [DKids.wf] at hwf
    simp only [Bool.and_eq_true, Bool.not_eq_true'] at hwf
    obtain ⟨⟨hk, hn⟩, hks⟩ := hwf
    have hk0 : ks.lookup c = none := by
      cases hkl : ks.lookup c
      · rfl
      · rw [hkl] at hk
        cases hk
    rw [DKids.wordsOf, List.mem_append]
    constructor
    · intro h
      cases h with
      | inl h =>
        rw [List.mem_map] at h
        obtain ⟨w1, hw1, rfl⟩ := h
        exact ⟨c, w1, n, rfl, by rw [DKids.lookup, if_pos rfl],
          (DNode.mem_wordsOfND n hn w1).mp hw1⟩
      | inr h =>
        obtain ⟨c1, w1, m, rfl, hl, hm⟩ := (DKids.mem_wordsOfKD ks hks w).mp h
        by_cases hcc : c = c1
        · subst hcc
          rw [hk0] at hl
          cases hl
        · exact ⟨c1, w1, m, rfl, by rw [DKids.lookup, if_neg hcc]; exact hl, hm⟩
    · rintro ⟨c1, w1, m, rfl, hl, hm⟩
      rw [DKids.lookup] at hl
      by_cases hcc : c = c1
      · subst hcc
        rw [if_pos rfl] at hl
        cases hl
        left
        rw [List.mem_map]
        exact ⟨w1, (DNode.mem_wordsOfND n hn w1).mpr hm, rfl⟩
      · rw [if_neg hcc] at hl
        right
        exact (DKids.mem_wordsOfKD ks hks (c1 :: w1)).mpr ⟨c1, w1, m, rfl, hl, hm⟩
end

theorem DNode.assocAt_append {D : Type} :
    ∀ (p : Word) (n cur : DNode D), n.finalNode p = some cur →
      ∀ v : Word, n.assocAt (p ++ v) = cur.assocAt v
  | [], n, cur => by
    intro h v
    rw [DNode.finalNode_nilD] at h
    cases h
    rfl
  | c :: p, .mk ks a, cur => by
    intro h v
    rw [DNode.finalNode] at h
    cases hl : ks.lookup c with
    | none => rw [hl] at h; cases h
    | some m =>
      rw [hl] at h
      rw [List.cons_append, DNode.assocAt_cons, hl]
      exact DNode.assocAt_append p m cur h v

theorem DNode.wf_finalNode {D : Type} :
    ∀ (p : Word) (n cur : DNode D), n.wf = true → n.finalNode p = some cur →
      cur.wf = true
  | [], n, cur => by
    intro hwf h
    rw [DNode.finalNode_nilD] at h
    cases h
    exact hwf
  | c :: p, .mk ks a, cur => by
    intro hwf h
    rw [DNode.finalNode] at h
    cases hl : ks.lookup c with
    | none => rw [hl] at h; cases h
    | some m =>
      rw [hl] at h
      rw [DNode.wf] at hwf
      exact DNode.wf_finalNode p m cur (DKids.wf_lookupD c m ks hwf hl) h

theorem DNode.removeOneWord_data {D : Type} :
    ∀ (w : Word) (n cur : DNode D), n.finalNode w = some cur →
      (n.removeOneWord w).1.2 = cur.assoc
  | [], .mk ks a, cur => by
    intro h
    rw [DNode.finalNode_nilD] at h
    cases h
    rfl
  | c :: w, .mk ks a, cur => by
    intro h
    rw [DNode.finalNode] at h
    cases hl : ks.lookup c with
    | none => rw [hl] at h; cases h
    | some m =>
      rw [hl] at h
      rw [DNode.removeOneWord, hl]
      simp only
      by_cases hk : ks.length > 1 || (m.removeOneWord w).1.1
      · rw [if_pos hk]
        exact DNode.removeOneWord_data w m cur h
      · rw [if_neg hk]
        exact DNode.removeOneWord_data w m cur h

theorem isPropPfx_self (p : Word) : isPropPfx p p = false := by
  simp [isPropPfx]

theorem isPropPfx_append_cons (p : Word) (c : Tok) (s : Word) :
    isPropPfx p (p ++ c :: s) = true := by
  rw [isPropPfx, isPfx_append]
  simp only [Bool.true_and, Bool.not_eq_true', decide_eq_false_iff_not]
  intro h
  have := congrArg List.length h
  simp at this

theorem isPropPfx_false_of_not_pfx {p v : Word} (h : isPfx p v = false) :
    isPropPfx p v = false := by
  rw [isPropPfx, h, Bool.false_and]

/-- Claim C7, counterexample: on the empty data trie the empty word is not
stored, yet `remove("")` returns `Some(Vec::new())` rather than the absent
marker `None` (the token path of `""` — the root itself — always exists, and
`map_or(Some(Vec::new()), ...)` fires on the missing association). -/
theorem claim_C7_cex :
    (DataTrie.new (D := Nat)).contains [] = false
    ∧ ((DataTrie.new (D := Nat)).remove []).1 = some []
    ∧ ¬(((DataTrie.new (D := Nat)).remove []).1 = none) := by
  refine ⟨rfl, rfl, ?h⟩
  intro h
  cases h

/-- Claim C7 (amended): `remove(w)` is a no-op returning `None` when `w`'s
token path is absent, and likewise when the path ends at a node that has
children but no association; for a stored word it returns exactly the data
list associated at the moment of the call; but when the path ends at an
unassociated node with no children (a dead leaf, or the root of an empty
trie for `w = ""`), it returns `Some([])` — not `None` — and leaves `len`
unchanged while pruning the dead path. -/
theorem claim_C7 {D : Type} (t : DataTrie D) (w : Word) :
    (t.root.finalNode w = none → t.remove w = (none, t))
    ∧ (∀ cur, t.root.finalNode w = some cur → cur.kids.isEmpty = false →
        cur.assoc = none → t.remove w = (none, t))
    ∧ (∀ dv, t.root.assocAt w = some dv → (t.remove w).1 = some dv)
    ∧ (∀ cur, t.root.finalNode w = some cur → cur.kids.isEmpty = true →
        cur.assoc = none →
        (t.remove w).1 = some [] ∧ (t.remove w).2.len = t.len) := by
  refine ⟨?ha, ?hb, ?hc, ?hd⟩
  · intro h
    rw [DataTrie.remove, h]
  · intro cur hfn hke ha
    rw [DataTrie.remove, hfn]
    simp only [hke, ha, Bool.not_false, if_pos]
  · intro dv hassoc
    rw [DNode.assocAt] at hassoc
    cases hfn : t.root.finalNode w with
    | none => rw [hfn] at hassoc; cases hassoc
    | some cur =>
      rw [hfn] at hassoc
      have ha : cur.assoc = some dv := hassoc
      rw [DataTrie.remove, hfn]
      cases hke : cur.kids.isEmpty with
      | false => simp only [hke, Bool.not_false, if_pos, ha]
      | true =>
        simp only [hke, Bool.not_true, Bool.false_eq_true, if_false]
        rw [DNode.removeOneWord_data w t.root cur hfn, ha]
  · intro cur hfn hke ha
    rw [DataTrie.remove, hfn]
    simp only [hke, Bool.not_true, Bool.false_eq_true, if_false]
    rw [DNode.removeOneWord_data w t.root cur hfn, ha]
    exact ⟨rfl, rfl⟩

/-- Claim C7, witness: a one-word trie storing 'a' with data 5; removing 'a'
returns exactly that data list. -/
theorem claim_C7_witness :
    ((DataTrie.insert DataTrie.new [("a")] (5 : Nat)).remove [("a")]).1 = some [5] :=
  (claim_C7 (DataTrie.insert DataTrie.new [("a")] (5 : Nat)) [("a")]).2.2.1 [5] rfl

/-- Claim C10: `clear_data(w)` on a word whose path is absent returns `None`
and changes nothing; on a stored word it returns the data list previously
attached, keeps the word stored (now with an empty data list), and leaves
`len` and the whole stored-word set unchanged. -/
theorem claim_C10 {D : Type} (t : DataTrie D) (w : Word) :
    (t.root.finalNode w = none → t.clearData w = (none, t))
    ∧ (∀ dv, t.root.assocAt w = some dv →
        (t.clearData w).1 = some dv
        ∧ (t.clearData w).2.len = t.len
        ∧ (t.clearData w).2.root.assocAt w = some []
        ∧ (∀ v, (t.clearData w).2.contains v = t.contains v)
        ∧ (t.clearData w).2.contains w = true) := by
  constructor
  · intro h
    rw [DataTrie.clearData, h]
  · intro dv hassoc
    rw [DNode.assocAt] at hassoc
    cases hfn : t.root.finalNode w with
    | none => rw [hfn] at hassoc; cases hassoc
    | some cur =>
      rw [hfn] at hassoc
      have ha : cur.assoc = some dv := hassoc
      have hres1 : (t.clearData w).1 = some dv := by
        rw [DataTrie.clearData, hfn]
        exact ha
      have hcontains : ∀ v, (t.clearData w).2.contains v = t.contains v := by
        intro v
        rw [DataTrie.clearData, hfn]
        rw [DataTrie.contains, DataTrie.contains, DNode.isWord, DNode.isWord]
        cases hp : isPfx w v with
        | false =>
          rw [DNode.assocAt_modAt_not_pfx _ w v t.root hp]
        | true =>
          obtain ⟨s, rfl⟩ := (isPfx_iff w v).mp hp
          rw [DNode.assocAt_modAt_append _ w t.root cur hfn s,
            DNode.assocAt_append w t.root cur hfn s]
          obtain ⟨cks, ca⟩ := cur
          cases s with
          | nil =>
            rw [DNode.assocAt_nil, DNode.assocAt_nil]
            cases ca <;> rfl
          | cons c s1 =>
            rw [DNode.assocAt_cons, DNode.assocAt_cons]
            rfl
      refine ⟨hres1, by rw [DataTrie.clearData, hfn], ?hw, hcontains, ?hcw⟩
      · rw [DataTrie.clearData, hfn]
        simp only
        rw [DNode.assocAt_modAt_self _ w t.root cur hfn]
        obtain ⟨cks, ca⟩ := cur
        rw [show (DNode.mk cks ca).assoc = ca from rfl] at ha
        subst ha
        rfl
      · rw [hcontains w, DataTrie.contains, DNode.isWord, DNode.assocAt, hfn]
        rw [show (match some cur with
          | none => (none : Option (List D))
          | some m => m.assoc) = cur.assoc from rfl, ha]
        rfl

/-- Claim C10, witness: clearing the data of stored word 'a' (data [5])
returns [5], keeps 'a' stored with empty data, and leaves `len` at 1. -/
theorem claim_C10_witness :
    (((DataTrie.insert DataTrie.new [("a")] (5 : Nat)).clearData [("a")]).1 = some [5])
    ∧ (((DataTrie.insert DataTrie.new [("a")] (5 : Nat)).clearData [("a")]).2.len =
        (DataTrie.insert DataTrie.new [("a")] (5 : Nat)).len)
    ∧ (((DataTrie.insert DataTrie.new [("a")] (5 : Nat)).clearData [("a")]).2.contains
        [("a")] = true) := by
  have h := (claim_C10 (DataTrie.insert DataTrie.new [("a")] (5 : Nat)) [("a")]).2 [5] rfl
  exact ⟨h.1, h.2.1, h.2.2.2.2⟩

/-- Claim C5, counterexample: the empty word is a storable word (root
association), but the node-level merge only walks the rhs child table, so
`+=` silently drops the rhs root's association: merging a trie that stores
`""` into an empty trie yields a trie that does not store `""`, not the
union of the two stored-word sets. -/
theorem claim_C5_cex :
    (DataTrie.insertNoData (DataTrie.new (D := Nat)) []).contains [] = true
    ∧ (DataTrie.addAssign (DataTrie.new (D := Nat))
        (DataTrie.insertNoData (DataTrie.new (D := Nat)) [])).contains [] = false := by
  exact ⟨rfl, rfl⟩

/-- Claim C5 (amended): for every nonempty word, the merge `A += B` stores
exactly the union of the stored words, and the data list for a word stored
in both is A's list with B's appended (a word stored in only one side keeps
its list); the same union of nonempty words holds for `A + B`; but the rhs
root association is dropped, so the empty word — storable via
`insert("")` — does not survive from the rhs side. -/
theorem claim_C5 {D : Type} (a b : DataTrie D) (hwfa : a.root.wf = true)
    (hwfb : b.root.wf = true) (c : Tok) (w : Word) :
    ((DataTrie.addAssign a b).root.assocAt (c :: w) =
      optAppend (a.root.assocAt (c :: w)) (b.root.assocAt (c :: w)))
    ∧ ((DataTrie.addAssign a b).contains (c :: w) =
        (a.contains (c :: w) || b.contains (c :: w)))
    ∧ ((DataTrie.addAssign a b).root.assoc = a.root.assoc)
    ∧ ((DataTrie.add a b).contains (c :: w) =
        (a.contains (c :: w) || b.contains (c :: w))) := by
  have key : ∀ x y : DataTrie D, y.root.wf = true →
      (DataTrie.addAssign x y).root.assocAt (c :: w) =
        optAppend (x.root.assocAt (c :: w)) (y.root.assocAt (c :: w)) := by
    intro x y hy
    rw [DataTrie.addAssign]
    exact DNode.assocAt_addAssign x.root y.root c w hy
  have keyc : ∀ x y : DataTrie D, y.root.wf = true →
      (DataTrie.addAssign x y).contains (c :: w) =
        (x.contains (c :: w) || y.contains (c :: w)) := by
    intro x y hy
    rw [DataTrie.contains, DataTrie.contains, DataTrie.contains,
      DNode.isWord, DNode.isWord, DNode.isWord]
    rw [show (DataTrie.addAssign x y).root = x.root.addAssign y.root from rfl]
    rw [DNode.assocAt_addAssign x.root y.root c w hy, optAppend_isSome]
  refine ⟨key a b hwfb, keyc a b hwfb, ?hassoc, ?hadd⟩
  · rw [DataTrie.addAssign]
    obtain ⟨aks, aa⟩ := a.root
    rfl
  · rw [DataTrie.add]
    by_cases hlt : a.len < b.len
    · rw [if_pos hlt, keyc b a hwfa, Bool.or_comm]
    · rw [if_neg hlt, keyc a b hwfb]

/-- Claim C5, witness: two one-word tries sharing the word 'w' with data [1]
and [10] merge to data [1, 10]; a word only in the rhs survives. -/
theorem claim_C5_witness :
    ((DataTrie.addAssign (DataTrie.insert DataTrie.new [("w")] (1 : Nat))
        (DataTrie.insert (DataTrie.insert DataTrie.new [("w")] 10) [("y")] 3)).root.assocAt
        [("w")] =
      optAppend ((DataTrie.insert DataTrie.new [("w")] (1 : Nat)).root.assocAt [("w")])
        ((DataTrie.insert (DataTrie.insert DataTrie.new [("w")] 10) [("y")] 3).root.assocAt
          [("w")]))
    ∧ ((DataTrie.addAssign (DataTrie.insert DataTrie.new [("w")] (1 : Nat))
        (DataTrie.insert (DataTrie.insert DataTrie.new [("w")] 10) [("y")] 3)).contains
        [("w")] =
        ((DataTrie.insert DataTrie.new [("w")] (1 : Nat)).contains [("w")] ||
          (DataTrie.insert (DataTrie.insert DataTrie.new [("w")] 10) [("y")] 3).contains
            [("w")])) := by
  have h := claim_C5 (DataTrie.insert DataTrie.new [("w")] (1 : Nat))
    (DataTrie.insert (DataTrie.insert DataTrie.new [("w")] 10) [("y")] 3)
    (by decide) (by decide) ("w") []
  exact ⟨h.1, h.2.1⟩

/-- Claim C6: when the prefix path exists, `remove_prefix(p)` removes exactly
the stored words strictly extending `p` (association frame: every other
word, `p` itself included, keeps its exact association and data), `len`
decreases by exactly the number of words removed, and the collected result
is a permutation of the removed words' concatenated data lists; when the
path is absent the call returns `None` and changes nothing. -/
theorem claim_C6 {D : Type} (t : DataTrie D) (p : Word)
    (hwf : t.root.wf = true) (hlen : t.len = t.root.countAssoc) :
    (t.root.finalNode p = none → t.removePfx p = (none, t))
    ∧ (∀ cur, t.root.finalNode p = some cur →
        (∀ w, (t.removePfx p).2.root.assocAt w =
            if isPropPfx p w = true then none else t.root.assocAt w)
        ∧ ((t.removePfx p).2.len + (cur.kids.wordsOf.map (fun s => p ++ s)).length = t.len)
        ∧ (∀ w, w ∈ cur.kids.wordsOf.map (fun s => p ++ s) ↔
            (t.contains w = true ∧ isPropPfx p w = true))
        ∧ (∃ dv, (t.removePfx p).1 = some dv ∧
            dv.Perm (cur.kids.wordData.map Prod.snd).flatten)) := by
  constructor
  · intro h
    rw [DataTrie.removePfx, h]
  · intro cur hfn
    have hrp : t.removePfx p =
        (some (DKids.removeAllWordsCollect cur.kids).2,
          ⟨t.root.modAt p (fun n => DNode.mk DKids.nil n.assoc),
            t.len - (DKids.removeAllWordsCollect cur.kids).1⟩) := by
      rw [DataTrie.removePfx, hfn]
    have hcwf : cur.wf = true := DNode.wf_finalNode p t.root cur hwf hfn
    obtain ⟨cks, ca⟩ := cur
    have hckswf : cks.wf = true := hcwf
    refine ⟨?hframe, ?hlen2, ?hmem, ?hdata⟩
    · intro w
      rw [hrp]
      simp only
      cases hp : isPfx p w with
      | false =>
        rw [isPropPfx_false_of_not_pfx hp]
        simp only [Bool.false_eq_true, if_false]
        exact DNode.assocAt_modAt_not_pfx _ p w t.root hp
      | true =>
        obtain ⟨s, rfl⟩ := (isPfx_iff p w).mp hp
        cases s with
        | nil =>
          rw [List.append_nil, isPropPfx_self]
          simp only [Bool.false_eq_true, if_false]
          have h2 := DNode.assocAt_modAt_append
            (fun n => DNode.mk DKids.nil n.assoc) p t.root (DNode.mk cks ca) hfn []
          rw [List.append_nil] at h2
          rw [h2, DNode.assocAt_nil, DNode.assocAt, hfn]
          rfl
        | cons c s1 =>
          rw [isPropPfx_append_cons, if_pos rfl]
          rw [DNode.assocAt_modAt_append
            (fun n => DNode.mk DKids.nil n.assoc) p t.root (DNode.mk cks ca) hfn (c :: s1)]
          rw [DNode.assocAt_cons]
          rfl
    · rw [hrp]
      simp only [List.length_map, DNode.kids_mkD]
      rw [DKids.collect_countK cks, DKids.wordsOf_lengthK cks]
      have hle : DKids.countAssoc cks ≤ t.len := by
        rw [hlen]
        refine Nat.le_trans ?h1 (DNode.countAssoc_finalNode_le p t.root _ hfn)
        rw [DNode.countAssoc]
        exact Nat.le_add_right _ _
      exact Nat.sub_add_cancel hle
    · intro w
      constructor
      · intro hw
        rw [List.mem_map] at hw
        obtain ⟨s, hs, rfl⟩ := hw
        simp only [DNode.kids_mkD] at hs
        obtain ⟨c, w1, m, rfl, hlk, hm⟩ := (DKids.mem_wordsOfKD cks hckswf s).mp hs
        constructor
        · rw [DataTrie.contains, DNode.isWord,
            DNode.assocAt_append p t.root _ hfn (c :: w1), DNode.assocAt_cons, hlk]
          exact hm
        · exact isPropPfx_append_cons p c w1
      · rintro ⟨hc, hpp⟩
        have hpfx : isPfx p w = true := by
          rw [isPropPfx, Bool.and_eq_true] at hpp
          exact hpp.1
        obtain ⟨s, rfl⟩ := (isPfx_iff p w).mp hpfx
        cases s with
        | nil =>
          rw [List.append_nil, isPropPfx_self] at hpp
          cases hpp
        | cons c w1 =>
          rw [List.mem_map]
          refine ⟨c :: w1, ?hmem2, rfl⟩
          rw [DataTrie.contains, DNode.isWord,
            DNode.assocAt_append p t.root _ hfn (c :: w1), DNode.assocAt_cons] at hc
          simp only [DNode.kids_mkD] at hc ⊢
          cases hlk : cks.lookup c with
          | none =>
            rw [hlk] at hc
            cases hc
          | some m =>
            rw [hlk] at hc
            exact (DKids.mem_wordsOfKD cks hckswf (c :: w1)).mpr ⟨c, w1, m, rfl, hlk, hc⟩
    · refine ⟨(DKids.removeAllWordsCollect cks).2, ?hd1, ?hd2⟩
      case hd1 =>
        rw [hrp]
        rfl
      case hd2 =>
        simp only [DNode.kids_mkD]
        exact DKids.collect_data_permK cks

/-- Claim C6, witness: a trie storing 'e' (data [5]) and 'ea' (data [7]);
removing the prefix 'e' keeps 'e' with its data, removes 'ea' collecting
[7], and drops `len` from 2 to 1. -/
theorem claim_C6_witness :
    (((DataTrie.insert (DataTrie.insert DataTrie.new [("e")] (5 : Nat))
        [("e"), ("a")] 7).removePfx [("e")]).2.root.assocAt [("e")] =
      (DataTrie.insert (DataTrie.insert DataTrie.new [("e")] (5 : Nat))
        [("e"), ("a")] 7).root.assocAt [("e")])
    ∧ (((DataTrie.insert (DataTrie.insert DataTrie.new [("e")] (5 : Nat))
        [("e"), ("a")] 7).removePfx [("e")]).2.root.assocAt [("e"), ("a")] = none)
    ∧ (((DataTrie.insert (DataTrie.insert DataTrie.new [("e")] (5 : Nat))
        [("e"), ("a")] 7).removePfx [("e")]).2.len + 1 =
      (DataTrie.insert (DataTrie.insert DataTrie.new [("e")] (5 : Nat))
        [("e"), ("a")] 7).len) := by
  have h := (claim_C6 (DataTrie.insert (DataTrie.insert DataTrie.new [("e")] (5 : Nat))
      [("e"), ("a")] 7) [("e")] (by decide) (by decide)).2
    (DNode.mk (DKids.cons ("a") (DNode.mk DKids.nil (some [7])) DKids.nil) (some [5]))
    (by rfl)
  refine ⟨?h1, ?h2, ?h3⟩
  · have hf := h.1 [("e")]
    rw [isPropPfx_self] at hf
    simpa using hf
  · have hf := h.1 [("e"), ("a")]
    rw [show isPropPfx [("e")] [("e"), ("a")] = true from rfl] at hf
    simpa using hf
  · exact h.2.1

theorem RNode.kids_mkR (ks : RKids) (a : Bool) : (RNode.mk ks a).kids = ks := rfl

theorem RNode.assoc_mkR (ks : RKids) (a : Bool) : (RNode.mk ks a).assoc = a := rfl

theorem RNode.finalNode_nilR (n : RNode) : n.finalNode [] = some n := by
  cases n
  rfl

theorem RKids.lookup_set_selfR (c : Tok) (n : RNode) :
    ∀ ks : RKids, (ks.set c n).lookup c = some n
  | .nil => by simp [set, lookup]
  | .cons k m ks => by
    by_cases h : k = c <;>
      simp [set, lookup, h, RKids.lookup_set_selfR c n ks]

theorem RNode.finalNode_modAt_selfR (f : RNode → RNode) :
    ∀ (p : Word) (n cur : RNode), n.finalNode p = some cur →
      (n.modAt p f).finalNode p = some (f cur)
  | [], n, cur => by
    intro h
    rw [RNode.finalNode_nilR] at h
    cases h
    cases n
    rw [show RNode.modAt (RNode.mk _ _) [] f = f (RNode.mk _ _) from rfl,
      RNode.finalNode_nilR]
  | c :: p, .mk ks a, cur => by
    intro h
    rw [RNode.finalNode] at h
    cases hl : ks.lookup c with
    | none => rw [hl] at h; cases h
    | some m =>
      rw [hl] at h
      rw [RNode.modAt, hl, RNode.finalNode, RKids.lookup_set_selfR c (m.modAt p f) ks]
      exact RNode.finalNode_modAt_selfR f p m cur h

theorem RNode.insertW_finalNode :
    ∀ (w : Word) (n : RNode), ∃ m : RNode,
      (n.insertW w).finalNode w = some m ∧ m.assoc = true
  | [], .mk ks a => by
    refine ⟨.mk ks true, ?_, rfl⟩
    show (RNode.mk ks true).finalNode [] = some (RNode.mk ks true)
    rw [RNode.finalNode_nilR]
  | c :: w, .mk ks a => by
    obtain ⟨m, hm, ha⟩ := RNode.insertW_finalNode w ((ks.lookup c).getD RNode.new)
    refine ⟨m, ?_, ha⟩
    show (RNode.mk (ks.set c (((ks.lookup c).getD RNode.new).insertW w)) a).finalNode
      (c :: w) = some m
    rw [RNode.finalNode, RKids.lookup_set_selfR c _ ks]
    exact hm

theorem RNode.removeOneWord_notWord :
    ∀ (w : Word) (n cur : RNode), n.finalNode w = some cur →
      (n.removeOneWord w).2.isWord w = false
  | [], .mk ks a, cur => by
    intro _h
    rw [RNode.removeOneWord, RNode.isWord, RNode.finalNode_nilR]
    rfl
  | c :: w, .mk ks a, cur => by
    intro h
    rw [RNode.finalNode] at h
    cases hl : ks.lookup c with
    | none => rw [hl] at h; cases h
    | some m =>
      rw [hl] at h
      rw [RNode.removeOneWord, hl]
      simp only
      by_cases hk : ks.length > 1 || (m.removeOneWord w).1
      · rw [if_pos hk]
        rw [RNode.isWord, RNode.finalNode, RKids.lookup_set_selfR c _ ks]
        have := RNode.removeOneWord_notWord w m cur h
        rw [RNode.isWord] at this
        exact this
      · rw [if_neg hk]
        rw [RNode.isWord, RNode.finalNode]
        rfl

/-- Claim C4, counterexample: inserting the empty string associates the root
itself — afterwards `contains("")` is true, `len` is 1 and the root carries
an association, contradicting the claim that the root only ever has
children and that `contains("")` is always false. -/
theorem claim_C4_cex :
    (Trie.insert Trie.new []).root.assoc = true
    ∧ (Trie.insert Trie.new []).contains [] = true
    ∧ (Trie.insert Trie.new []).len = 1 := ⟨rfl, rfl, rfl⟩

/-- Claim C4 (amended): the empty string is a storable word occupying the
root's association slot: on any trie, `insert("")` walks zero tokens and
associates the root itself, after which `contains("")` returns true. -/
theorem claim_C4 (t : Trie) :
    ((t.insert []).root.assoc = true) ∧ ((t.insert []).contains [] = true) := by
  obtain ⟨⟨ks, a⟩, l⟩ := t
  constructor
  · rfl
  · rw [Trie.contains, RNode.isWord,
      show (Trie.insert ⟨RNode.mk ks a, l⟩ []).root = RNode.mk ks true from rfl,
      RNode.finalNode_nilR]
    rfl

/-- Claim C8: on any trie, immediately after `insert(k)` the key is
contained; after `insert(k)` followed by `remove(k)` it is not. -/
theorem claim_C8 (t : Trie) (w : Word) :
    ((t.insert w).contains w = true)
    ∧ (((t.insert w).remove w).contains w = false) := by
  obtain ⟨m, hm, ha⟩ := RNode.insertW_finalNode w t.root
  have hroot : (t.insert w).root = t.root.insertW w := rfl
  constructor
  · rw [Trie.contains, RNode.isWord, hroot, hm]
    exact ha
  · rw [Trie.remove, hroot, hm]
    cases hke : m.kids.isEmpty with
    | false =>
      simp only [hke, Bool.not_false, if_pos, ha, if_true]
      rw [Trie.contains, RNode.isWord]
      rw [RNode.finalNode_modAt_selfR (fun n => RNode.mk n.kids false) w
        (t.root.insertW w) m hm]
      rfl
    | true =>
      simp only [hke, Bool.not_true, Bool.false_eq_true, if_false]
      rw [Trie.contains]
      exact RNode.removeOneWord_notWord w (t.root.insertW w) m hm

/-- Claim C1, failing evaluation: merging the one-word tries for 'a' and 'b'
with `+=` stores both words but leaves the cached `len` at 1, so `len()` no
longer equals the number of associated (stored-word) nodes: `add_assign`
merges the roots without ever updating `len`. -/
theorem claim_C1 :
    (Trie.addAssign (Trie.insert Trie.new [("a")]) (Trie.insert Trie.new [("b")])).len = 1
    ∧ (Trie.addAssign (Trie.insert Trie.new [("a")])
        (Trie.insert Trie.new [("b")])).root.countAssoc = 2
    ∧ (Trie.addAssign (Trie.insert Trie.new [("a")])
        (Trie.insert Trie.new [("b")])).contains [("a")] = true
    ∧ (Trie.addAssign (Trie.insert Trie.new [("a")])
        (Trie.insert Trie.new [("b")])).contains [("b")] = true :=
  ⟨rfl, rfl, rfl, rfl⟩

/-- Claim C2, counterexample: (1) in the spec's own scenario — insert 'a',
'ab', 'abc', 'abcd', then remove 'abc' — the path of 'abc' survives (node
'c' cannot be deallocated while 'abcd' is stored), so `get("abc")` returns
`Some(["abcd"])`, not the absent marker; (2) after insert 'ab', insert 'ac',
remove 'ab', the disassociated leaf 'b' is kept inside the branching parent,
so a node with an empty child table and no association is reachable after
the mutating call returned. -/
theorem claim_C2_cex :
    ¬((Trie.remove (Trie.insert (Trie.insert (Trie.insert (Trie.insert Trie.new
        [("a")]) [("a"), ("b")]) [("a"), ("b"), ("c")]) [("a"), ("b"), ("c"), ("d")])
        [("a"), ("b"), ("c")]).get [("a"), ("b"), ("c")] = none)
    ∧ (Trie.remove (Trie.insert (Trie.insert Trie.new [("a"), ("b")]) [("a"), ("c")])
        [("a"), ("b")]).root.deadBelow = true := by
  refine ⟨?h1, rfl⟩
  intro h
  rw [show (Trie.remove (Trie.insert (Trie.insert (Trie.insert (Trie.insert Trie.new
    [("a")]) [("a"), ("b")]) [("a"), ("b"), ("c")]) [("a"), ("b"), ("c"), ("d")])
    [("a"), ("b"), ("c")]).get [("a"), ("b"), ("c")] =
    some [[("a"), ("b"), ("c"), ("d")]] from rfl] at h
  cases h

/-- Claim C2 (amended): in the scenario insert 'a', 'ab', 'abc', 'abcd',
remove 'abc', the stored words are exactly a, ab, abcd (len 3), contains
'abc' is false and the query for 'abcd' still succeeds; but the node for 'c'
survives (it still leads to 'abcd'), so `get("abc")` returns the extension
list `["abcd"]` rather than the absent marker; and single-word removal can
leave a node with an empty child table and no association behind when the
terminal's parent keeps other children (insert 'ab', insert 'ac', remove
'ab'), while the trie still answers queries correctly. -/
theorem claim_C2 :
    ((Trie.remove (Trie.insert (Trie.insert (Trie.insert (Trie.insert Trie.new
        [("a")]) [("a"), ("b")]) [("a"), ("b"), ("c")]) [("a"), ("b"), ("c"), ("d")])
        [("a"), ("b"), ("c")]).get [] =
        some [[("a")], [("a"), ("b")], [("a"), ("b"), ("c"), ("d")]])
    ∧ ((Trie.remove (Trie.insert (Trie.insert (Trie.insert (Trie.insert Trie.new
        [("a")]) [("a"), ("b")]) [("a"), ("b"), ("c")]) [("a"), ("b"), ("c"), ("d")])
        [("a"), ("b"), ("c")]).len = 3)
    ∧ ((Trie.remove (Trie.insert (Trie.insert (Trie.insert (Trie.insert Trie.new
        [("a")]) [("a"), ("b")]) [("a"), ("b"), ("c")]) [("a"), ("b"), ("c"), ("d")])
        [("a"), ("b"), ("c")]).contains [("a"), ("b"), ("c")] = false)
    ∧ ((Trie.remove (Trie.insert (Trie.insert (Trie.insert (Trie.insert Trie.new
        [("a")]) [("a"), ("b")]) [("a"), ("b"), ("c")]) [("a"), ("b"), ("c"), ("d")])
        [("a"), ("b"), ("c")]).get [("a"), ("b"), ("c"), ("d")] =
        some [[("a"), ("b"), ("c"), ("d")]])
    ∧ ((Trie.remove (Trie.insert (Trie.insert (Trie.insert (Trie.insert Trie.new
        [("a")]) [("a"), ("b")]) [("a"), ("b"), ("c")]) [("a"), ("b"), ("c"), ("d")])
        [("a"), ("b"), ("c")]).get [("a"), ("b"), ("c")] =
        some [[("a"), ("b"), ("c"), ("d")]])
    ∧ ((Trie.remove (Trie.insert (Trie.insert Trie.new [("a"), ("b")]) [("a"), ("c")])
        [("a"), ("b")]).contains [("a"), ("c")] = true)
    ∧ ((Trie.remove (Trie.insert (Trie.insert Trie.new [("a"), ("b")]) [("a"), ("c")])
        [("a"), ("b")]).contains [("a"), ("b")] = false)
    ∧ ((Trie.remove (Trie.insert (Trie.insert Trie.new [("a"), ("b")]) [("a"), ("c")])
        [("a"), ("b")]).len = 1) :=
  ⟨rfl, rfl, rfl, rfl, rfl, rfl, rfl, rfl⟩

/-- Claim C3, failing evaluation: the operations are not panic-free. (1) The
flag grapheme cluster U+1F1FA U+1F1F8 occupies 8 UTF-8 bytes, so
`ArrayString::<4>::from` fails on it and `Trie::insert`'s `.unwrap()`
panics — modelled by the checked insert returning `none`. (2) After insert
'ab', insert 'ac', the first `remove("ab")` leaves the dead leaf 'b' with
`len` 1; a second `remove("ab")` walks the still-present path and decrements
`len` to 0 although nothing was stored there; a third `remove("ab")` hits
`self.len -= 1` with `len == 0`, the debug-mode subtraction overflow —
modelled by the checked remove returning `none`. -/
theorem claim_C3 :
    (Trie.insertChk Trie.new [("🇺🇸")] = none)
    ∧ (("🇺🇸").utf8ByteSize = 8)
    ∧ (Option.bind (Option.bind
        (Trie.removeChk (Trie.insert (Trie.insert Trie.new [("a"), ("b")]) [("a"), ("c")])
          [("a"), ("b")])
        (fun s => Trie.removeChk s [("a"), ("b")]))
        (fun s => Trie.removeChk s [("a"), ("b")]) = none) :=
  ⟨rfl, rfl, rfl⟩

theorem ordLe_refl (ord : Ordering) (a : Nat) : ordLe ord a a := by
  cases ord <;> simp [ordLe]

theorem exists_ordLe_extremal (ord : Ordering) :
    ∀ l : List Word, l ≠ [] → ∃ x ∈ l, ∀ y ∈ l, ordLe ord (wlen y) (wlen x)
  | [], h => absurd rfl h
  | a :: l, _ => by
    cases hl : l with
    | nil =>
      refine ⟨a, List.mem_cons_self a [], ?_⟩
      intro y hy
      rw [List.mem_singleton] at hy
      subst hy
      exact ordLe_refl ord _
    | cons b l2 =>
      obtain ⟨x, hx, hmax⟩ := exists_ordLe_extremal ord l (by rw [hl]; exact List.cons_ne_nil b l2)
      rw [← hl]
      by_cases hc : ordLe ord (wlen x) (wlen a)
      · refine ⟨a, List.mem_cons_self a l, ?_⟩
        intro y hy
        rw [List.mem_cons] at hy
        cases hy with
        | inl h => subst h; exact ordLe_refl ord _
        | inr h =>
          have h2 := hmax y h
          cases ord <;> simp [ordLe] at hc h2 ⊢ <;> omega
      · refine ⟨x, List.mem_cons_of_mem a hx, ?_⟩
        intro y hy
        rw [List.mem_cons] at hy
        cases hy with
        | inl h =>
          subst h
          cases ord <;> simp [ordLe] at hc ⊢ <;> omega
        | inr h => exact hmax y h

theorem selSpec_step (ord : Ordering) (hord : ord = Ordering.lt ∨ ord = Ordering.gt)
    (V acc : List Word) (s : Word) (h : selSpec ord V acc) :
    selSpec ord (V ++ [s])
      (match acc.head? with
        | none => acc ++ [s]
        | some f =>
          match compare (wlen s) (wlen f) with
          | Ordering.lt => if ord = Ordering.lt then [s] else acc
          | Ordering.gt => if ord = Ordering.gt then [s] else acc
          | Ordering.eq => acc ++ [s]) := by
  cases acc with
  | nil =>
    have hV : V = [] := by
      by_contra hne
      obtain ⟨x, hx, hmax⟩ := exists_ordLe_extremal ord V hne
      exact absurd ((h x).mpr ⟨hx, hmax⟩) (List.not_mem_nil x)
    subst hV
    show selSpec ord ([] ++ [s]) ([] ++ [s])
    intro x
    constructor
    · intro hx
      refine ⟨hx, ?_⟩
      intro y hy
      simp only [List.nil_append, List.mem_singleton] at hx hy
      subst hx
      subst hy
      exact ordLe_refl ord _
    · rintro ⟨hx, _⟩
      exact hx
  | cons f tl =>
    obtain ⟨hfV, hfmax⟩ := (h f).mp (List.mem_cons_self f tl)
    show selSpec ord (V ++ [s])
      (match compare (wlen s) (wlen f) with
        | Ordering.lt => if ord = Ordering.lt then [s] else f :: tl
        | Ordering.gt => if ord = Ordering.gt then [s] else f :: tl
        | Ordering.eq => (f :: tl) ++ [s])
    cases hcmp : compare (wlen s) (wlen f) with
    | lt =>
      have hlt : wlen s < wlen f := Nat.compare_eq_lt.mp hcmp
      show selSpec ord (V ++ [s]) (if ord = Ordering.lt then [s] else f :: tl)
      rcases hord with rfl | rfl
      · rw [if_pos rfl]
        intro x
        rw [List.mem_singleton]
        constructor
        · rintro rfl
          refine ⟨List.mem_append_right V (List.mem_singleton_self _), ?_⟩
          intro y hy
          rw [List.mem_append, List.mem_singleton] at hy
          cases hy with
          | inl hy =>
            have h2 := hfmax y hy
            simp only [ordLe] at h2 ⊢
            omega
          | inr hy =>
            subst hy
            exact ordLe_refl _ _
        · rintro ⟨hx, hbound⟩
          rw [List.mem_append, List.mem_singleton] at hx
          cases hx with
          | inl hx =>
            have h2 := hbound s (List.mem_append_right V (List.mem_singleton_self _))
            have h3 := hfmax x hx
            simp only [ordLe] at h2 h3
            omega
          | inr hx => exact hx
      · rw [if_neg (by decide)]
        intro x
        constructor
        · intro hx
          obtain ⟨hxV, hxmax⟩ := (h x).mp hx
          refine ⟨List.mem_append_left _ hxV, ?_⟩
          intro y hy
          rw [List.mem_append, List.mem_singleton] at hy
          cases hy with
          | inl hy => exact hxmax y hy
          | inr hy =>
            subst hy
            have h2 := hxmax f hfV
            simp only [ordLe] at h2 ⊢
            omega
        · rintro ⟨hx, hbound⟩
          rw [List.mem_append, List.mem_singleton] at hx
          cases hx with
          | inl hx =>
            refine (h x).mpr ⟨hx, ?_⟩
            intro y hy
            exact hbound y (List.mem_append_left _ hy)
          | inr hx =>
            subst hx
            have h2 := hbound f (List.mem_append_left _ hfV)
            simp only [ordLe] at h2
            omega
    | gt =>
      have hgt : wlen f < wlen s := Nat.compare_eq_gt.mp hcmp
      show selSpec ord (V ++ [s]) (if ord = Ordering.gt then [s] else f :: tl)
      rcases hord with rfl | rfl
      · rw [if_neg (by decide)]
        intro x
        constructor
        · intro hx
          obtain ⟨hxV, hxmax⟩ := (h x).mp hx
          refine ⟨List.mem_append_left _ hxV, ?_⟩
          intro y hy
          rw [List.mem_append, List.mem_singleton] at hy
          cases hy with
          | inl hy => exact hxmax y hy
          | inr hy =>
            subst hy
            have h2 := hxmax f hfV
            simp only [ordLe] at h2 ⊢
            omega
        · rintro ⟨hx, hbound⟩
          rw [List.mem_append, List.mem_singleton] at hx
          cases hx with
          | inl hx =>
            refine (h x).mpr ⟨hx, ?_⟩
            intro y hy
            exact hbound y (List.mem_append_left _ hy)
          | inr hx =>
            subst hx
            have h2 := hbound f (List.mem_append_left _ hfV)
            simp only [ordLe] at h2
            omega
      · rw [if_pos rfl]
        intro x
        rw [List.mem_singleton]
        constructor
        · rintro rfl
          refine ⟨List.mem_append_right V (List.mem_singleton_self _), ?_⟩
          intro y hy
          rw [List.mem_append, List.mem_singleton] at hy
          cases hy with
          | inl hy =>
            have h2 := hfmax y hy
            simp only [ordLe] at h2 ⊢
            omega
          | inr hy =>
            subst hy
            exact ordLe_refl _ _
        · rintro ⟨hx, hbound⟩
          rw [List.mem_append, List.mem_singleton] at hx
          cases hx with
          | inl hx =>
            have h2 := hbound s (List.mem_append_right V (List.mem_singleton_self _))
            have h3 := hfmax x hx
            simp only [ordLe] at h2 h3
            omega
          | inr hx => exact hx
    | eq =>
      have heq : wlen s = wlen f := Nat.compare_eq_eq.mp hcmp
      show selSpec ord (V ++ [s]) ((f :: tl) ++ [s])
      intro x
      constructor
      · intro hx
        rw [List.mem_append, List.mem_singleton] at hx
        cases hx with
        | inl hx =>
          obtain ⟨hxV, hxmax⟩ := (h x).mp hx
          refine ⟨List.mem_append_left _ hxV, ?_⟩
          intro y hy
          rw [List.mem_append, List.mem_singleton] at hy
          cases hy with
          | inl hy => exact hxmax y hy
          | inr hy =>
            subst hy
            rw [show wlen y = wlen f from heq]
            exact hxmax f hfV
        | inr hx =>
          subst hx
          refine ⟨List.mem_append_right V (List.mem_singleton_self x), ?_⟩
          intro y hy
          rw [List.mem_append, List.mem_singleton] at hy
          cases hy with
          | inl hy =>
            rw [show wlen x = wlen f from heq]
            exact hfmax y hy
          | inr hy =>
            subst hy
            exact ordLe_refl _ _
      · rintro ⟨hx, hbound⟩
        rw [List.mem_append, List.mem_singleton] at hx
        rw [List.mem_append, List.mem_singleton]
        cases hx with
        | inl hx =>
          left
          refine (h x).mpr ⟨hx, ?_⟩
          intro y hy
          exact hbound y (List.mem_append_left _ hy)
        | inr hx =>
          right
          exact hx

mutual
theorem RNode.wordsMinMax_specN (ord : Ordering)
    (hord : ord = Ordering.lt ∨ ord = Ordering.gt) :
    ∀ (n : RNode) (sub : Word) (acc V : List Word), selSpec ord V acc →
      selSpec ord (V ++ n.wordsOf.map (fun w => sub ++ w)) (n.wordsMinMax sub acc ord)
  | .mk ks a => by
    intro sub acc V h
    rw [RNode.wordsMinMax, RNode.wordsOf]
    cases a with
    | false =>
      simp only [Bool.false_eq_true, if_false, List.nil_append]
      exact RKids.wordsMinMax_specK ord hord ks sub acc V h
    | true =>
      rw [if_pos rfl, if_pos rfl]
      simp only [List.map_append, List.map_cons, List.map_nil, List.append_nil]
      rw [← List.append_assoc]
      exact RKids.wordsMinMax_specK ord hord ks sub _ (V ++ [sub])
        (selSpec_step ord hord V acc sub h)
theorem RKids.wordsMinMax_specK (ord : Ordering)
    (hord : ord = Ordering.lt ∨ ord = Ordering.gt) :
    ∀ (ks : RKids) (sub : Word) (acc V : List Word), selSpec ord V acc →
      selSpec ord (V ++ ks.wordsOf.map (fun w => sub ++ w)) (ks.wordsMinMax sub acc ord)
  | .nil => by
    intro sub acc V h
    rw [RKids.wordsMinMax, RKids.wordsOf]
    simp only [List.map_nil, List.append_nil]
    exact h
  | .cons c n ks => by
    intro sub acc V h
    rw [RKids.wordsMinMax, RKids.wordsOf]
    have hmapeq : List.map (fun w => sub ++ w) (List.map (fun w => c :: w) n.wordsOf) =
        List.map (fun w => (sub ++ [c]) ++ w) n.wordsOf := by
      rw [List.map_map]
      refine List.map_congr_left ?_
      intro w _
      show sub ++ (c :: w) = (sub ++ [c]) ++ w
      rw [List.append_assoc]
      rfl
    rw [List.map_append, hmapeq, ← List.append_assoc]
    exact RKids.wordsMinMax_specK ord hord ks sub _ _
      (RNode.wordsMinMax_specN ord hord n (sub ++ [c]) acc V h)
end

theorem RNode.isWord_nil (n : RNode) : n.isWord [] = n.assoc := by
  rw [RNode.isWord, RNode.finalNode_nilR]

theorem RNode.isWord_cons (ks : RKids) (a : Bool) (c : Tok) (w : Word) :
    (RNode.mk ks a).isWord (c :: w) =
      (match ks.lookup c with
        | none => false
        | some m => m.isWord w) := by
  cases hl : ks.lookup c with
  | none => rw [RNode.isWord, RNode.finalNode, hl]
  | some m =>
    rw [RNode.isWord, RNode.finalNode, hl]
    rfl

theorem RKids.wf_lookupR (c : Tok) (m : RNode) :
    ∀ ks : RKids, ks.wf = true → ks.lookup c = some m → m.wf = true
  | .nil => by simp [lookup]
  | .cons k n ks => by
    intro hwf hl
    rw [wf] at hwf
    simp only [Bool.and_eq_true] at hwf
    rw [lookup] at hl
    by_cases h : k = c
    · simp [h] at hl
      exact hl ▸ hwf.1.2
    · simp [h] at hl
      exact RKids.wf_lookupR c m ks hwf.2 hl

mutual
theorem RNode.mem_wordsOfNR :
    ∀ n : RNode, n.wf = true → ∀ w : Word, w ∈ n.wordsOf ↔ n.isWord w = true
  | .mk ks a => by
    intro hwf w
    rw [RNode.wf] at hwf
    rw [RNode.wordsOf, List.mem_append]
    constructor
    · intro h
      cases h with
      | inl h =>
        cases a with
        | false => simp at h
        | true =>
          simp at h
          subst h
          rw [RNode.isWord_nil]
          rfl
      | inr h =>
        obtain ⟨c, w1, m, rfl, hl, hm⟩ := (RKids.mem_wordsOfKR ks hwf w).mp h
        rw [RNode.isWord_cons, hl]
        exact hm
    · intro h
      cases w with
      | nil =>
        rw [RNode.isWord_nil] at h
        left
        cases a with
        | false => cases h
        | true => simp
      | cons c w1 =>
        rw [RNode.isWord_cons] at h
        cases hl : ks.lookup c with
        | none => rw [hl] at h; cases h
        | some m =>
          rw [hl] at h
          right
          exact (RKids.mem_wordsOfKR ks hwf (c :: w1)).mpr ⟨c, w1, m, rfl, hl, h⟩
theorem RKids.mem_wordsOfKR :
    ∀ ks : RKids, ks.wf = true → ∀ w : Word,
      w ∈ ks.wordsOf ↔ ∃ c w1 m, w = c :: w1 ∧ ks.lookup c = some m ∧ m.isWord w1 = true
  | .nil => by
    intro _ w
    simp [RKids.wordsOf, RKids.lookup]
  | .cons c n ks => by
    intro hwf w
    rw [RKids.wf] at hwf
    simp only [Bool.and_eq_true, Bool.not_eq_true'] at hwf
    obtain ⟨⟨hk, hn⟩, hks⟩ := hwf
    have hk0 : ks.lookup c = none := by
      cases hkl : ks.lookup c
      · rfl
      · rw [hkl] at hk
        cases hk
    rw [RKids.wordsOf, List.mem_append]
    constructor
    · intro h
      cases h with
      | inl h =>
        rw [List.mem_map] at h
        obtain ⟨w1, hw1, rfl⟩ := h
        exact ⟨c, w1, n, rfl, by rw [RKids.lookup, if_pos rfl],
          (RNode.mem_wordsOfNR n hn w1).mp hw1⟩
      | inr h =>
        obtain ⟨c1, w1, m, rfl, hl, hm⟩ := (RKids.mem_wordsOfKR ks hks w).mp h
        by_cases hcc : c = c1
        · subst hcc
          rw [hk0] at hl
          cases hl
        · exact ⟨c1, w1, m, rfl, by rw [RKids.lookup, if_neg hcc]; exact hl, hm⟩
    · rintro ⟨c1, w1, m, rfl, hl, hm⟩
      rw [RKids.lookup] at hl
      by_cases hcc : c = c1
      · subst hcc
        rw [if_pos rfl] at hl
        cases hl
        left
        rw [List.mem_map]
        exact ⟨w1, (RNode.mem_wordsOfNR n hn w1).mpr hm, rfl⟩
      · rw [if_neg hcc] at hl
        right
        exact (RKids.mem_wordsOfKR ks hks (c1 :: w1)).mpr ⟨c1, w1, m, rfl, hl, hm⟩
end

/-- Claim C9: for a well-formed trie, `get_longest()` returns exactly the
stored words of maximal byte length and `get_shortest()` exactly those of
minimal byte length, every tied word included ("length" is the byte count
`substring.len()` the source compares); the empty trie yields empty lists,
not an absent marker; and the spec's example — insert 'a', 'aa', 'bb' —
yields shortest `[a]` and longest `[aa, bb]`. -/
theorem claim_C9 (t : Trie) (hwf : t.root.wf = true) :
    (∀ w, w ∈ t.getLongest ↔
      (t.root.isWord w = true ∧ ∀ v, t.root.isWord v = true → wlen v ≤ wlen w))
    ∧ (∀ w, w ∈ t.getShortest ↔
      (t.root.isWord w = true ∧ ∀ v, t.root.isWord v = true → wlen w ≤ wlen v))
    ∧ (Trie.new.getLongest = [] ∧ Trie.new.getShortest = [])
    ∧ ((Trie.insert (Trie.insert (Trie.insert Trie.new [("a")]) [("a"), ("a")])
        [("b"), ("b")]).getShortest = [[("a")]])
    ∧ ((Trie.insert (Trie.insert (Trie.insert Trie.new [("a")]) [("a"), ("a")])
        [("b"), ("b")]).getLongest = [[("a"), ("a")], [("b"), ("b")]]) := by
  have hbase : selSpec Ordering.gt ([] : List Word) [] := by
    intro x
    simp
  have hbase2 : selSpec Ordering.lt ([] : List Word) [] := by
    intro x
    simp
  have hmapid : t.root.wordsOf.map (fun w => ([] : Word) ++ w) = t.root.wordsOf := by
    simp
  refine ⟨?hlong, ?hshort, ⟨rfl, rfl⟩, rfl, rfl⟩
  · intro w
    have hspec := RNode.wordsMinMax_specN Ordering.gt (Or.inr rfl) t.root [] [] [] hbase
    rw [hmapid, List.nil_append] at hspec
    rw [Trie.getLongest]
    rw [hspec w]
    constructor
    · rintro ⟨h1, h2⟩
      refine ⟨(RNode.mem_wordsOfNR t.root hwf w).mp h1, ?_⟩
      intro v hv
      have h3 := h2 v ((RNode.mem_wordsOfNR t.root hwf v).mpr hv)
      simpa [ordLe] using h3
    · rintro ⟨h1, h2⟩
      refine ⟨(RNode.mem_wordsOfNR t.root hwf w).mpr h1, ?_⟩
      intro y hy
      have h3 := h2 y ((RNode.mem_wordsOfNR t.root hwf y).mp hy)
      simpa [ordLe] using h3
  · intro w
    have hspec := RNode.wordsMinMax_specN Ordering.lt (Or.inl rfl) t.root [] [] [] hbase2
    rw [hmapid, List.nil_append] at hspec
    rw [Trie.getShortest]
    rw [hspec w]
    constructor
    · rintro ⟨h1, h2⟩
      refine ⟨(RNode.mem_wordsOfNR t.root hwf w).mp h1, ?_⟩
      intro v hv
      have h3 := h2 v ((RNode.mem_wordsOfNR t.root hwf v).mpr hv)
      simpa [ordLe] using h3
    · rintro ⟨h1, h2⟩
      refine ⟨(RNode.mem_wordsOfNR t.root hwf w).mpr h1, ?_⟩
      intro y hy
      have h3 := h2 y ((RNode.mem_wordsOfNR t.root hwf y).mp hy)
      simpa [ordLe] using h3

/-- Claim C9, witness: the extremal-selection theorem applied to the
concrete trie storing 'a', 'aa', 'bb'. -/
theorem claim_C9_witness :
    ((Trie.insert (Trie.insert (Trie.insert Trie.new [("a")]) [("a"), ("a")])
      [("b"), ("b")]).getShortest = [[("a")]])
    ∧ ((Trie.insert (Trie.insert (Trie.insert Trie.new [("a")]) [("a"), ("a")])
      [("b"), ("b")]).getLongest = [[("a"), ("a")], [("b"), ("b")]])
    ∧ ([("a"), ("a")] ∈ (Trie.insert (Trie.insert (Trie.insert Trie.new [("a")])
      [("a"), ("a")]) [("b"), ("b")]).getLongest) := by
  have h := claim_C9 (Trie.insert (Trie.insert (Trie.insert Trie.new [("a")])
    [("a"), ("a")]) [("b"), ("b")]) (by decide)
  refine ⟨h.2.2.2.1, h.2.2.2.2, ?_⟩
  rw [h.2.2.2.2]
  exact List.mem_cons_self _ _
